import Mathlib

/-!
Verification of the generic doubly linked list `adlist.c` (Redis 4.0 source
reading).  The C code is shallowly embedded: nodes live in an explicit heap
(a `List` of node records indexed by address, allocation appends a fresh
cell), the `list` header record carries `head`/`tail` addresses, the length
and the three optional hooks, and every C function becomes a Lean function
on `(Heap, list)` states.  `zfree` has no observable effect in this model
(a freed cell simply becomes unreachable), and `zmalloc` outcomes are an
explicit parameter (`Bool` for single-allocation operations, an oracle list
for `listDup`).
-/

namespace Adlist

/-- A node of the doubly linked list: `prev`/`next` are optional addresses
into the heap, `value` is the opaque payload (`listNode` of adlist.h). -/
structure listNode (V : Type) where
  prev : Option Nat
  next : Option Nat
  value : V
  deriving Repr

/-- The heap of allocated nodes; the address of a node is its index.
Allocation appends at the end, so `h.length` is always a fresh address. -/
abbrev Heap (V : Type) := List (listNode V)

/-- The list header (`list` of adlist.h): head/tail addresses, length and
the three optional customization hooks.  The `free` hook destroys caller
resources, which is invisible to the value model, hence `V → Unit`. -/
structure list (V : Type) where
  head : Option Nat
  tail : Option Nat
  len : Nat
  dup : Option (V → Option V)
  free : Option (V → Unit)
  matchFn : Option (V → V → Bool)

/-- Iterator (`listIter` of adlist.h): cursor address and direction. -/
structure listIter where
  next : Option Nat
  direction : Nat
  deriving Repr, DecidableEq

/-- Constant `AL_START_HEAD` of adlist.h. -/
def AL_START_HEAD : Nat := 0

/-- Constant `AL_START_TAIL` of adlist.h. -/
def AL_START_TAIL : Nat := 1

/-- Read the node stored at address `a`. -/
def nodeAt (h : Heap V) (a : Nat) : Option (listNode V) := h[a]?

/-- Write through an address: apply `f` to the node stored at `a`
(no-op on a dangling address, which is undefined behaviour in C). -/
def hupd (h : Heap V) (a : Nat) (f : listNode V → listNode V) : Heap V :=
  match h[a]? with
  | some nd => h.set a (f nd)
  | none => h

/-- Assignment `p->next = x` for an address. -/
def setNext (h : Heap V) (a : Nat) (x : Option Nat) : Heap V :=
  hupd h a (fun nd => { nd with next := x })

/-- Assignment `p->prev = x` for an address. -/
def setPrev (h : Heap V) (a : Nat) (x : Option Nat) : Heap V :=
  hupd h a (fun nd => { nd with prev := x })

/-- Assignment `p->next = x` where `p` is an optional address (C dereferences
unconditionally; a `none` here is undefined behaviour, modelled as no-op). -/
def setNextOpt (h : Heap V) (p : Option Nat) (x : Option Nat) : Heap V :=
  match p with
  | some a => setNext h a x
  | none => h

/-- Assignment `p->prev = x` where `p` is an optional address. -/
def setPrevOpt (h : Heap V) (p : Option Nat) (x : Option Nat) : Heap V :=
  match p with
  | some a => setPrev h a x
  | none => h

/-- Read of `n->next` through an optional address. -/
def nextOf (h : Heap V) (p : Option Nat) : Option Nat :=
  match p with
  | some a => (h[a]?).bind listNode.next
  | none => none

/-- Read of `n->prev` through an optional address. -/
def prevOf (h : Heap V) (p : Option Nat) : Option Nat :=
  match p with
  | some a => (h[a]?).bind listNode.prev
  | none => none

/-- Model of `listCreate` (adlist.c:47), success path: a fresh empty header with all
hooks cleared.  The allocation outcome is supplied by the caller
(`listDup` threads an oracle through it). -/
def listCreate (V : Type) : list V :=
  { head := none, tail := none, len := 0,
    dup := none, free := none, matchFn := none }

/-- Model of `listAddNodeHead` (adlist.c:118), success path after `zmalloc`
returned the fresh address `h.length`. -/
def listAddNodeHeadCore (h : Heap V) (l : list V) (value : V) :
    Heap V × list V :=
  let a := h.length
  if l.len = 0 then
    -- list->head = list->tail = node; node->prev = node->next = NULL
    (h ++ [{ prev := none, next := none, value := value }],
     { l with head := some a, tail := some a, len := l.len + 1 })
  else
    -- node->prev = NULL; node->next = list->head;
    -- list->head->prev = node; list->head = node
    let h := h ++ [{ prev := none, next := l.head, value := value }]
    let h := setPrevOpt h l.head (some a)
    (h, { l with head := some a, len := l.len + 1 })

/-- Model of `listAddNodeHead` (adlist.c:118): on allocation failure (`ok = false`)
`NULL` is returned and no operation is performed. -/
def listAddNodeHead (ok : Bool) (h : Heap V) (l : list V) (value : V) :
    Heap V × Option (list V) :=
  if ok then
    let r := listAddNodeHeadCore h l value
    (r.1, some r.2)
  else (h, none)

/-- Model of `listAddNodeTail` (adlist.c:155), success path after `zmalloc`
returned the fresh address `h.length`. -/
def listAddNodeTailCore (h : Heap V) (l : list V) (value : V) :
    Heap V × list V :=
  let a := h.length
  if l.len = 0 then
    (h ++ [{ prev := none, next := none, value := value }],
     { l with head := some a, tail := some a, len := l.len + 1 })
  else
    -- node->prev = list->tail; node->next = NULL;
    -- list->tail->next = node; list->tail = node
    let h := h ++ [{ prev := l.tail, next := none, value := value }]
    let h := setNextOpt h l.tail (some a)
    (h, { l with tail := some a, len := l.len + 1 })

/-- Model of `listAddNodeTail` (adlist.c:155): wrapper with allocation outcome. -/
def listAddNodeTail (ok : Bool) (h : Heap V) (l : list V) (value : V) :
    Heap V × Option (list V) :=
  if ok then
    let r := listAddNodeTailCore h l value
    (r.1, some r.2)
  else (h, none)

/-- Model of `listInsertNode` (adlist.c:187), success path after `zmalloc` returned
the fresh address `h.length`.  Dereferencing a dangling `old_node` is
undefined behaviour in C; here it leaves the state unchanged. -/
def listInsertNodeCore (h : Heap V) (l : list V) (old_node : Nat)
    (value : V) (after : Bool) : Heap V × list V :=
  match h[old_node]? with
  | none => (h, l)
  | some ond =>
    let a := h.length
    if after then
      -- node->prev = old_node; node->next = old_node->next;
      -- if (list->tail == old_node) list->tail = node
      let nd : listNode V :=
        { prev := some old_node, next := ond.next, value := value }
      let h := h ++ [nd]
      let l := if l.tail = some old_node then { l with tail := some a } else l
      -- if (node->prev) node->prev->next = node
      let h := setNextOpt h nd.prev (some a)
      -- if (node->next) node->next->prev = node
      let h := setPrevOpt h nd.next (some a)
      (h, { l with len := l.len + 1 })
    else
      -- node->next = old_node; node->prev = old_node->prev;
      -- if (list->head == old_node) list->head = node
      let nd : listNode V :=
        { prev := ond.prev, next := some old_node, value := value }
      let h := h ++ [nd]
      let l := if l.head = some old_node then { l with head := some a } else l
      let h := setNextOpt h nd.prev (some a)
      let h := setPrevOpt h nd.next (some a)
      (h, { l with len := l.len + 1 })

/-- Model of `listInsertNode` (adlist.c:187): wrapper with allocation outcome. -/
def listInsertNode (ok : Bool) (h : Heap V) (l : list V) (old_node : Nat)
    (value : V) (after : Bool) : Heap V × Option (list V) :=
  if ok then
    let r := listInsertNodeCore h l old_node value after
    (r.1, some r.2)
  else (h, none)

/-- Model of `listDelNode` (adlist.c:233).  The `free` hook and `zfree` have no
observable effect on the model; the cell of the deleted node simply
becomes unreachable.  A dangling `node` is undefined behaviour in C,
modelled as no-op. -/
def listDelNode (h : Heap V) (l : list V) (node : Nat) :
    Heap V × list V :=
  match h[node]? with
  | none => (h, l)
  | some nd =>
    -- if (node->prev) node->prev->next = node->next else list->head = node->next
    let s1 : Heap V × list V :=
      match nd.prev with
      | some p => (setNext h p nd.next, l)
      | none => (h, { l with head := nd.next })
    -- if (node->next) node->next->prev = node->prev else list->tail = node->prev
    let s2 : Heap V × list V :=
      match nd.next with
      | some q => (setPrev s1.1 q nd.prev, s1.2)
      | none => (s1.1, { s1.2 with tail := nd.prev })
    (s2.1, { s2.2 with len := s2.2.len - 1 })

/-- Model of `listGetIterator` (adlist.c:262): wrapper with allocation outcome. -/
def listGetIterator (ok : Bool) (l : list V) (direction : Nat) :
    Option listIter :=
  if ok then
    some { next := if direction = AL_START_HEAD then l.head else l.tail,
           direction := direction }
  else none

/-- Model of `listRewind` (adlist.c:294). -/
def listRewind (l : list V) : listIter :=
  { next := l.head, direction := AL_START_HEAD }

/-- Model of `listRewindTail` (adlist.c:306). -/
def listRewindTail (l : list V) : listIter :=
  { next := l.tail, direction := AL_START_TAIL }

/-- Model of `listNext` (adlist.c:334): returns the updated iterator and the node
returned by the C function (`none` signals exhaustion). -/
def listNext (h : Heap V) (iter : listIter) : listIter × Option Nat :=
  match iter.next with
  | none => (iter, none)
  | some a =>
    if iter.direction = AL_START_HEAD then
      ({ iter with next := nextOf h (some a) }, some a)
    else
      ({ iter with next := prevOf h (some a) }, some a)

/-- Model of `listEmpty` (adlist.c:68): walks the chain calling the `free` hook and
`zfree` on every node — both invisible to the model — then clears
head/tail and the length.  The hooks of the header are not touched. -/
def listEmpty (h : Heap V) (l : list V) : Heap V × list V :=
  (h, { l with head := none, tail := none, len := 0 })

/-- Model of `listRotate` (adlist.c:475), statement by statement. -/
def listRotate (h : Heap V) (l : list V) : Heap V × list V :=
  let tl := l.tail
  if l.len ≤ 1 then (h, l)
  else
    -- list->tail = tail->prev
    let l' := { l with tail := prevOf h tl }
    -- list->tail->next = NULL
    let h := setNextOpt h l'.tail none
    -- list->head->prev = tail
    let h := setPrevOpt h l'.head tl
    -- tail->prev = NULL; tail->next = list->head
    let h := setPrevOpt h tl none
    let h := setNextOpt h tl l'.head
    -- list->head = tail
    (h, { l' with head := tl })

/-- Model of `listJoin` (adlist.c:500), statement by statement; returns the updated
heap, the destination header and the emptied source header. -/
def listJoin (h : Heap V) (l : list V) (o : list V) :
    Heap V × list V × list V :=
  -- if (o->head) o->head->prev = l->tail
  let h := setPrevOpt h o.head l.tail
  -- if (l->tail) l->tail->next = o->head else l->head = o->head
  let s1 : Heap V × list V :=
    match l.tail with
    | some t => (setNext h t o.head, l)
    | none => (h, { l with head := o.head })
  -- if (o->tail) l->tail = o->tail
  let l2 := match o.tail with
    | some t => { s1.2 with tail := some t }
    | none => s1.2
  -- l->len += o->len; o->head = o->tail = NULL; o->len = 0
  (s1.1, { l2 with len := l2.len + o.len },
   { o with head := none, tail := none, len := 0 })

/-- The forward walk of `listIndex` (adlist.c:462):
`while(index-- && n) n = n->next`. -/
def walkNext (h : Heap V) : Nat → Option Nat → Option Nat
  | 0, n => n
  | _ + 1, none => none
  | k + 1, some a => walkNext h k (nextOf h (some a))

/-- The backward walk of `listIndex` (adlist.c:459):
`while(index-- && n) n = n->prev`. -/
def walkPrev (h : Heap V) : Nat → Option Nat → Option Nat
  | 0, n => n
  | _ + 1, none => none
  | k + 1, some a => walkPrev h k (prevOf h (some a))

/-- Model of `listIndex` (adlist.c:453). -/
def listIndex (h : Heap V) (l : list V) (index : Int) : Option Nat :=
  if index < 0 then
    walkPrev h ((-index) - 1).toNat l.tail
  else
    walkNext h index.toNat l.head

/-- Loop of `listSearchKey` (adlist.c:415): iterates from the head with the match
hook (or address identity — here value equality via `BEq`).  `fuel` bounds
the walk; callers pass the list length. -/
def searchLoop [BEq V] (h : Heap V) (l : list V) (key : V) :
    Nat → listIter → Option Nat
  | 0, _ => none
  | fuel + 1, iter =>
    let r := listNext h iter
    match r.2 with
    | none => none
    | some a =>
      match h[a]? with
      | none => none
      | some nd =>
        match l.matchFn with
        | some m => if m nd.value key then some a
                    else searchLoop h l key fuel r.1
        | none => if nd.value == key then some a
                  else searchLoop h l key fuel r.1

/-- Model of `listSearchKey` (adlist.c:415). -/
def listSearchKey [BEq V] (h : Heap V) (l : list V) (key : V) : Option Nat :=
  searchLoop h l key l.len (listRewind l)

/-- One `zmalloc` outcome from the oracle; an exhausted oracle means the
allocation succeeds. -/
def takeOracle : List Bool → Bool × List Bool
  | [] => (true, [])
  | b :: rest => (b, rest)

/-- Apply the duplicate hook to a value (`listDup`, adlist.c:379-386):
with a hook, its result (`none` = hook failure); without, the value
itself is reused. -/
def dupValue (d : Option (V → Option V)) (v : V) : Option V :=
  match d with
  | some f => f v
  | none => some v

/-- The `while((node = listNext(&iter)) != NULL)` loop of `listDup`
(adlist.c:376-391).  `fuel` bounds the walk (the caller passes the source
length, which is exact for a well-formed source).  A `none` result models
`listRelease(copy); return NULL`: the cells of the partial copy become
unreachable. -/
def dupLoop (h : Heap V) (copy : list V) (iter : listIter) :
    List Bool → Nat → List Bool × Heap V × Option (list V)
  | oracle, 0 => (oracle, h, some copy)
  | oracle, fuel + 1 =>
    let r := listNext h iter
    match r.2 with
    | none => (oracle, h, some copy)
    | some a =>
      match h[a]? with
      | none => (oracle, h, none)
      | some nd =>
        match dupValue copy.dup nd.value with
        | none => (oracle, h, none)
        | some value =>
          let t := takeOracle oracle
          match listAddNodeTail t.1 h copy value with
          | (h', some copy') => dupLoop h' copy' r.1 t.2 fuel
          | (h', none) => (t.2, h', none)

/-- The copy header `listDup` starts from: a fresh empty list sharing the
source's hooks (adlist.c:370-374). -/
def dupInit (orig : list V) : list V :=
  { listCreate V with
    dup := orig.dup
    free := orig.free
    matchFn := orig.matchFn }

/-- Model of `listDup` (adlist.c:364): create the copy header, share the hooks,
rewind on the source and run the append loop. -/
def listDup (oracle : List Bool) (h : Heap V) (orig : list V) :
    List Bool × Heap V × Option (list V) :=
  let t := takeOracle oracle
  if t.1 then
    dupLoop h (dupInit orig) (listRewind orig) t.2 orig.len
  else (t.2, h, none)

/-! ## Representation predicate

`segOk h pre as nxt` states that the addresses `as` form a doubly linked
segment in heap `h`: each cell is allocated, `prev` of the first cell is
`pre`, consecutive cells point at each other, and `next` of the last cell
is `nxt`.  A complete well-formed list is a `segOk h none as none` chain
whose first and last addresses are the header's `head` and `tail` and
whose length is the header's `len`. -/

/-- Doubly linked segment check (executable). -/
def segOk (h : Heap V) (pre : Option Nat) :
    List Nat → Option Nat → Bool
  | [], _ => true
  | a :: rest, nxt =>
    match h[a]? with
    | none => false
    | some nd =>
      nd.prev == pre && nd.next == (rest.head?).or nxt &&
        segOk h (some a) rest nxt

/-- Mirror segment check following `prev` pointers: `segOkP h nxt bs pre`
holds of the reversed chain. -/
def segOkP (h : Heap V) (nxt : Option Nat) :
    List Nat → Option Nat → Bool
  | [], _ => true
  | a :: rest, pre =>
    match h[a]? with
    | none => false
    | some nd =>
      nd.next == nxt && nd.prev == (rest.head?).or pre &&
        segOkP h (some a) rest pre

/-- Predicate stating that `l` is a well-formed list in heap `h` whose nodes are exactly the
addresses `as` in head-to-tail order. -/
def represents (h : Heap V) (l : list V) (as : List Nat) : Prop :=
  l.head = as.head? ∧ l.tail = as.getLast? ∧ l.len = as.length ∧
    as.Nodup ∧ segOk h none as none = true

instance (h : Heap V) (l : list V) (as : List Nat) :
    Decidable (represents h l as) := by
  unfold represents; infer_instance

/-- The values stored at a chain of addresses (all `some` when the chain
is allocated). -/
def valuesA (h : Heap V) (as : List Nat) : List (Option V) :=
  as.map (fun a => (h[a]?).map listNode.value)

/-- Collect the addresses yielded by repeated `listNext` calls, with fuel
(the exhaustive traversal of a well-formed list needs `len` steps). -/
def traverseAddrs (h : Heap V) : listIter → Nat → List Nat
  | _, 0 => []
  | iter, fuel + 1 =>
    let r := listNext h iter
    match r.2 with
    | none => []
    | some a => a :: traverseAddrs h r.1 fuel

/-! ## Heap lemmas -/

theorem hupd_length (h : Heap V) (b : Nat) (f : listNode V → listNode V) :
    (hupd h b f).length = h.length := by
  unfold hupd; cases h[b]? <;> simp

theorem hupd_get_ne (h : Heap V) (b : Nat) (f : listNode V → listNode V)
    {a : Nat} (hab : a ≠ b) : (hupd h b f)[a]? = h[a]? := by
  unfold hupd
  cases h[b]? with
  | none => rfl
  | some nd => exact List.getElem?_set_ne (Ne.symm hab)

theorem hupd_get_self {h : Heap V} {a : Nat} {nd : listNode V}
    (ha : h[a]? = some nd) (f : listNode V → listNode V) :
    (hupd h a f)[a]? = some (f nd) := by
  unfold hupd
  rw [ha]
  exact List.getElem?_set_eq_of_lt _ (List.getElem?_eq_some.mp ha).1

theorem concat_get_lt (h : Heap V) (x : listNode V) {a : Nat}
    (ha : a < h.length) : (h ++ [x])[a]? = h[a]? :=
  List.getElem?_append_left ha

theorem concat_get_len (h : Heap V) (x : listNode V) :
    (h ++ [x])[h.length]? = some x :=
  List.getElem?_concat_length h x

theorem get_lt_length {h : Heap V} {a : Nat} {nd : listNode V}
    (ha : h[a]? = some nd) : a < h.length :=
  (List.getElem?_eq_some.mp ha).1

/-! ## Segment lemmas -/

theorem segOk_congr {h h' : Heap V} {as : List Nat}
    (he : ∀ a ∈ as, h'[a]? = h[a]?) (pre nxt : Option Nat) :
    segOk h' pre as nxt = segOk h pre as nxt := by
  induction as generalizing pre with
  | nil => rfl
  | cons a rest ih =>
    simp only [segOk]
    rw [he a (by simp)]
    cases h[a]? with
    | none => rfl
    | some nd =>
      rw [ih (fun b hb => he b (by simp [hb])) (some a)]

theorem segOk_mem_lt {h : Heap V} {as : List Nat} {pre nxt : Option Nat}
    (hs : segOk h pre as nxt = true) : ∀ a ∈ as, a < h.length := by
  induction as generalizing pre with
  | nil => intro a ha; simp at ha
  | cons b rest ih =>
    intro a ha
    simp only [segOk] at hs
    cases hb : h[b]? with
    | none => rw [hb] at hs; simp at hs
    | some nd =>
      rw [hb] at hs
      simp only [Bool.and_eq_true] at hs
      rcases List.mem_cons.mp ha with rfl | ha
      · exact get_lt_length hb
      · exact ih hs.2 a ha

theorem segOk_append {h : Heap V} (xs ys : List Nat) (pre nxt : Option Nat) :
    segOk h pre (xs ++ ys) nxt =
      (segOk h pre xs ((ys.head?).or nxt) &&
        segOk h ((xs.getLast?).or pre) ys nxt) := by
  induction xs generalizing pre with
  | nil => simp [segOk]
  | cons a rest ih =>
    simp only [List.cons_append, segOk]
    cases h[a]? with
    | none => rfl
    | some nd =>
      dsimp only
      simp only [List.append_eq]
      rw [ih (some a)]
      have h1 : (rest ++ ys).head? = (rest.head?).or ys.head? := by
        cases rest <;> simp
      have h2 : ((a :: rest).getLast?).or pre = (rest.getLast?).or (some a) := by
        cases rest with
        | nil => simp
        | cons b bs =>
          simp only [List.getLast?_cons_cons]
          cases hg : (b :: bs).getLast? with
          | none => simp at hg
          | some t => simp
      rw [h1, h2, Option.or_assoc]
      cases rest with
      | nil => simp [segOk]
      | cons b bs => simp [Bool.and_assoc]

theorem segOkP_append {h : Heap V} (xs ys : List Nat) (nxt pre : Option Nat) :
    segOkP h nxt (xs ++ ys) pre =
      (segOkP h nxt xs ((ys.head?).or pre) &&
        segOkP h ((xs.getLast?).or nxt) ys pre) := by
  induction xs generalizing nxt with
  | nil => simp [segOkP]
  | cons a rest ih =>
    simp only [List.cons_append, segOkP]
    cases h[a]? with
    | none => rfl
    | some nd =>
      dsimp only
      simp only [List.append_eq]
      rw [ih (some a)]
      have h1 : (rest ++ ys).head? = (rest.head?).or ys.head? := by
        cases rest <;> simp
      have h2 : ((a :: rest).getLast?).or nxt = (rest.getLast?).or (some a) := by
        cases rest with
        | nil => simp
        | cons b bs =>
          simp only [List.getLast?_cons_cons]
          cases hg : (b :: bs).getLast? with
          | none => simp at hg
          | some t => simp
      rw [h1, h2, Option.or_assoc]
      cases rest with
      | nil => simp [segOkP]
      | cons b bs => simp [Bool.and_assoc]

/-- A forward segment read backwards is a mirror segment. -/
theorem segOk_reverse {h : Heap V} {as : List Nat} {pre nxt : Option Nat}
    (hs : segOk h pre as nxt = true) :
    segOkP h nxt as.reverse pre = true := by
  induction as generalizing pre with
  | nil => rfl
  | cons a rest ih =>
    simp only [segOk] at hs
    cases ha : h[a]? with
    | none => rw [ha] at hs; simp at hs
    | some nd =>
      rw [ha] at hs
      simp only [Bool.and_eq_true, beq_iff_eq] at hs
      obtain ⟨⟨hprev, hnext⟩, hrest⟩ := hs
      have hrev := ih hrest
      simp only [List.reverse_cons]
      rw [segOkP_append]
      have hlast : rest.reverse.getLast? = rest.head? := by
        cases rest <;> simp
      rw [Bool.and_eq_true]
      constructor
      · exact hrev
      · simp [segOkP, ha, hlast, hprev, hnext]

/-- The mirror direction of `segOk_reverse`. -/
theorem segOkP_reverse {h : Heap V} {as : List Nat} {pre nxt : Option Nat}
    (hs : segOkP h nxt as pre = true) :
    segOk h pre as.reverse nxt = true := by
  induction as generalizing nxt with
  | nil => rfl
  | cons a rest ih =>
    simp only [segOkP] at hs
    cases ha : h[a]? with
    | none => rw [ha] at hs; simp at hs
    | some nd =>
      rw [ha] at hs
      simp only [Bool.and_eq_true, beq_iff_eq] at hs
      obtain ⟨⟨hnext, hprev⟩, hrest⟩ := hs
      have hrev := ih hrest
      simp only [List.reverse_cons]
      rw [segOk_append]
      have hlast : rest.reverse.getLast? = rest.head? := by
        cases rest <;> simp
      rw [Bool.and_eq_true]
      constructor
      · exact hrev
      · simp [segOk, ha, hlast, hprev, hnext]

theorem segOk_cons_iff {h : Heap V} {a : Nat} {rest : List Nat}
    {pre nxt : Option Nat} :
    segOk h pre (a :: rest) nxt = true ↔
      ∃ nd, h[a]? = some nd ∧ nd.prev = pre ∧
        nd.next = (rest.head?).or nxt ∧ segOk h (some a) rest nxt = true := by
  simp only [segOk]
  cases hnd : h[a]? with
  | none => simp
  | some nd => simp [Bool.and_assoc, and_assoc]

theorem segOk_snoc_iff {h : Heap V} {t : Nat} {xs : List Nat}
    {pre nxt : Option Nat} :
    segOk h pre (xs ++ [t]) nxt = true ↔
      segOk h pre xs (some t) = true ∧
        ∃ nd, h[t]? = some nd ∧ nd.prev = (xs.getLast?).or pre ∧
          nd.next = nxt := by
  rw [segOk_append, Bool.and_eq_true]
  constructor
  · rintro ⟨h1, h2⟩
    rcases segOk_cons_iff.mp h2 with ⟨nd, hnd, hp, hn, -⟩
    exact ⟨h1, nd, hnd, hp, by simpa using hn⟩
  · rintro ⟨h1, nd, hnd, hp, hn⟩
    refine ⟨h1, segOk_cons_iff.mpr ⟨nd, hnd, hp, by simpa using hn, rfl⟩⟩

/-! ## Walk and traversal lemmas -/

theorem walkNext_none (h : Heap V) (k : Nat) : walkNext h k none = none := by
  cases k <;> rfl

theorem walkPrev_none (h : Heap V) (k : Nat) : walkPrev h k none = none := by
  cases k <;> rfl

/-- On a forward chain, the forward walk of `listIndex` lands on the `k`-th
address of the chain (and on nothing past its end). -/
theorem walkNext_seg {h : Heap V} {as : List Nat} {pre : Option Nat}
    (hs : segOk h pre as none = true) (k : Nat) :
    walkNext h k as.head? = as[k]? := by
  induction as generalizing pre k with
  | nil => simp [walkNext_none]
  | cons a rest ih =>
    rcases segOk_cons_iff.mp hs with ⟨nd, hnd, -, hn, hrest⟩
    cases k with
    | zero => simp [walkNext]
    | succ k =>
      have hstep : nextOf h (some a) = rest.head? := by
        simp [nextOf, hnd, hn]
      simp only [List.head?_cons, walkNext, hstep]
      rw [ih hrest k]
      simp

/-- On a mirror chain, the backward walk of `listIndex` lands on the `k`-th
address of the chain. -/
theorem walkPrev_seg {h : Heap V} {bs : List Nat} {nxt : Option Nat}
    (hs : segOkP h nxt bs none = true) (k : Nat) :
    walkPrev h k bs.head? = bs[k]? := by
  induction bs generalizing nxt k with
  | nil => simp [walkPrev_none]
  | cons a rest ih =>
    simp only [segOkP] at hs
    cases hnd : h[a]? with
    | none => rw [hnd] at hs; simp at hs
    | some nd =>
      rw [hnd] at hs
      simp only [Bool.and_eq_true, beq_iff_eq] at hs
      obtain ⟨⟨-, hp⟩, hrest⟩ := hs
      cases k with
      | zero => simp [walkPrev]
      | succ k =>
        have hstep : prevOf h (some a) = rest.head? := by
          simp [prevOf, hnd, hp]
        simp only [List.head?_cons, walkPrev, hstep]
        rw [ih hrest k]
        simp

/-- A forward iterator positioned at the start of a chain yields exactly
the chain (given enough fuel). -/
theorem traverse_fwd {h : Heap V} {as : List Nat} {pre : Option Nat}
    (hs : segOk h pre as none = true) :
    ∀ fuel, as.length ≤ fuel →
      traverseAddrs h { next := as.head?, direction := AL_START_HEAD } fuel
        = as := by
  induction as generalizing pre with
  | nil =>
    intro fuel _
    cases fuel with
    | zero => rfl
    | succ f => rfl
  | cons a rest ih =>
    intro fuel hf
    rcases segOk_cons_iff.mp hs with ⟨nd, hnd, -, hn, hrest⟩
    cases fuel with
    | zero => simp at hf
    | succ f =>
      have hstep : nextOf h (some a) = rest.head? := by
        simp [nextOf, hnd, hn]
      have hih := ih hrest f (by simpa using hf)
      simp only [AL_START_HEAD] at hih
      simp [traverseAddrs, listNext, hstep, AL_START_HEAD]
      exact hih

/-- A backward iterator positioned at the start of a mirror chain yields
exactly the chain (given enough fuel). -/
theorem traverse_bwd {h : Heap V} {bs : List Nat} {nxt : Option Nat}
    (hs : segOkP h nxt bs none = true) :
    ∀ fuel, bs.length ≤ fuel →
      traverseAddrs h { next := bs.head?, direction := AL_START_TAIL } fuel
        = bs := by
  induction bs generalizing nxt with
  | nil =>
    intro fuel _
    cases fuel with
    | zero => rfl
    | succ f => rfl
  | cons a rest ih =>
    intro fuel hf
    simp only [segOkP] at hs
    cases hnd : h[a]? with
    | none => rw [hnd] at hs; simp at hs
    | some nd =>
      rw [hnd] at hs
      simp only [Bool.and_eq_true, beq_iff_eq] at hs
      obtain ⟨⟨-, hp⟩, hrest⟩ := hs
      cases fuel with
      | zero => simp at hf
      | succ f =>
        have hstep : prevOf h (some a) = rest.head? := by
          simp [prevOf, hnd, hp]
        have hih := ih hrest f (by simpa using hf)
        simp only [AL_START_TAIL] at hih
        simp [traverseAddrs, listNext, hstep, AL_START_HEAD, AL_START_TAIL]
        exact hih

/-! ## Value lemmas -/

theorem valuesA_hupd_link {f : listNode V → listNode V}
    (hf : ∀ nd, (f nd).value = nd.value) (h : Heap V) (b : Nat)
    (as : List Nat) : valuesA (hupd h b f) as = valuesA h as := by
  unfold valuesA
  apply List.map_congr_left
  intro a _
  by_cases hab : a = b
  · subst hab
    cases hnd : h[a]? with
    | none => simp [hupd, hnd]
    | some nd => rw [hupd_get_self hnd f]; simp [hf]
  · rw [hupd_get_ne h b f hab]

theorem valuesA_setNext (h : Heap V) (b : Nat) (x : Option Nat)
    (as : List Nat) : valuesA (setNext h b x) as = valuesA h as := by
  unfold setNext
  refine valuesA_hupd_link ?_ h b as
  intro nd; rfl

theorem valuesA_setPrev (h : Heap V) (b : Nat) (x : Option Nat)
    (as : List Nat) : valuesA (setPrev h b x) as = valuesA h as := by
  unfold setPrev
  refine valuesA_hupd_link ?_ h b as
  intro nd; rfl

theorem valuesA_concat (h : Heap V) (x : listNode V) {as : List Nat}
    (hlt : ∀ a ∈ as, a < h.length) :
    valuesA (h ++ [x]) as = valuesA h as := by
  unfold valuesA
  apply List.map_congr_left
  intro a ha
  rw [concat_get_lt h x (hlt a ha)]

theorem valuesA_congr {h h' : Heap V} {as : List Nat}
    (he : ∀ a ∈ as, h'[a]? = h[a]?) :
    valuesA h' as = valuesA h as := by
  unfold valuesA
  apply List.map_congr_left
  intro a ha
  rw [he a ha]

/-- The structural invariant of the specification: `len == 0` iff head and
tail are both empty, and `len == 1` iff head and tail name the same sole
node whose `prev` and `next` are both empty. -/
def lenInv (h : Heap V) (l : list V) : Prop :=
  (l.len = 0 ↔ l.head = none ∧ l.tail = none) ∧
  (l.len = 1 ↔ ∃ a nd, l.head = some a ∧ l.tail = some a ∧
    h[a]? = some nd ∧ nd.prev = none ∧ nd.next = none)

/-- A well-formed list satisfies the specification's structural invariant. -/
theorem represents_lenInv {h : Heap V} {l : list V} {as : List Nat}
    (hr : represents h l as) : lenInv h l := by
  obtain ⟨hh, ht, hl, -, hs⟩ := hr
  constructor
  · constructor
    · intro h0
      have : as = [] := List.length_eq_zero.mp (hl.symm.trans h0)
      subst this
      simp [hh, ht]
    · rintro ⟨hhd, -⟩
      cases as with
      | nil => simpa using hl
      | cons a rest => simp [hh] at hhd
  · constructor
    · intro h1
      rcases List.length_eq_one.mp (hl.symm.trans h1) with ⟨x, hx⟩
      subst hx
      rcases segOk_cons_iff.mp hs with ⟨nd, hnd, hp, hn, -⟩
      exact ⟨x, nd, by simpa using hh, by simpa using ht, hnd, hp,
        by simpa using hn⟩
    · rintro ⟨a, nd, hhd, -, hnd, -, hnx⟩
      cases as with
      | nil => simp [hh] at hhd
      | cons b rest =>
        have hab : b = a := by simpa [hh] using hhd
        subst hab
        rcases segOk_cons_iff.mp hs with ⟨nd', hnd', -, hn', -⟩
        rw [hnd'] at hnd
        cases hnd
        cases rest with
        | nil => simpa using hl
        | cons c cs => simp [hnx] at hn'

/-- Well-formedness is stable under any heap change that preserves the
cells of the chain. -/
theorem represents_congr {h h' : Heap V} {l : list V} {as : List Nat}
    (hr : represents h l as) (he : ∀ a ∈ as, h'[a]? = h[a]?) :
    represents h' l as := by
  obtain ⟨hh, ht, hl, hd, hs⟩ := hr
  exact ⟨hh, ht, hl, hd, by rw [segOk_congr he]; exact hs⟩

/-! ## Operation correctness lemmas -/

/-- Lemma: `listAddNodeHead` (success path) prepends the fresh node to the chain. -/
theorem addHeadCore_rep {h : Heap V} {l : list V} {as : List Nat} (v : V)
    (hr : represents h l as) :
    represents (listAddNodeHeadCore h l v).1 (listAddNodeHeadCore h l v).2
      (h.length :: as) ∧
    valuesA (listAddNodeHeadCore h l v).1 (h.length :: as) =
      some v :: valuesA h as := by
  obtain ⟨hh, ht, hl, hd, hs⟩ := hr
  have hmem := segOk_mem_lt hs
  have hfresh : h.length ∉ as := fun hx => by have := hmem _ hx; omega
  by_cases h0 : l.len = 0
  · have hnil : as = [] := List.length_eq_zero.mp (hl.symm.trans h0)
    subst hnil
    simp only [listAddNodeHeadCore, if_pos h0]
    refine ⟨⟨rfl, by simp, by simp [h0], by simp, ?_⟩, ?_⟩
    · simp [segOk, concat_get_len]
    · simp [valuesA, concat_get_len]
  · cases as with
    | nil => simp [hl] at h0
    | cons b rest =>
      rcases segOk_cons_iff.mp hs with ⟨bnd, hbnd, hbp, hbn, hrest⟩
      have hblt : b < h.length := hmem b (by simp)
      simp only [listAddNodeHeadCore, if_neg h0, hh, List.head?_cons,
        setPrevOpt]
      set h1 : Heap V := h ++ [{ prev := none, next := some b, value := v }]
        with hh1
      have h1b : h1[b]? = some bnd := by
        rw [hh1, concat_get_lt h _ hblt, hbnd]
      have h1new : h1[h.length]? =
          some { prev := none, next := some b, value := v } := by
        rw [hh1]; exact concat_get_len h _
      set h2 : Heap V := setPrev h1 b (some h.length) with hh2
      have h2new : h2[h.length]? =
          some { prev := none, next := some b, value := v } := by
        rw [hh2, setPrev, hupd_get_ne h1 b _ (by omega)]
        exact h1new
      have h2b : h2[b]? = some { bnd with prev := some h.length } := by
        rw [hh2, setPrev, hupd_get_self h1b]
      have h2rest : ∀ x ∈ rest, h2[x]? = h[x]? := by
        intro x hx
        have hxb : x ≠ b := by
          intro hxe; subst hxe; exact (List.nodup_cons.mp hd).1 hx
        have hxl : x < h.length := hmem x (by simp [hx])
        rw [hh2, setPrev, hupd_get_ne h1 b _ hxb, hh1,
          concat_get_lt h _ hxl]
      refine ⟨⟨rfl, by simpa using ht, by simp [hl], ?_, ?_⟩, ?_⟩
      · exact List.nodup_cons.mpr ⟨hfresh, hd⟩
      · apply segOk_cons_iff.mpr
        refine ⟨_, h2new, rfl, by simp, ?_⟩
        apply segOk_cons_iff.mpr
        refine ⟨_, h2b, rfl, by simpa using hbn, ?_⟩
        rw [segOk_congr h2rest]
        exact hrest
      · have hmap : List.map (fun a => (h2[a]?).map listNode.value) rest =
            List.map (fun a => (h[a]?).map listNode.value) rest := by
          apply List.map_congr_left
          intro x hx; rw [h2rest x hx]
        simp only [valuesA, List.map_cons]
        rw [h2new, h2b, hmap, hbnd]
        simp

/-- Lemma: `listAddNodeTail` (success path) appends the fresh node to the chain;
cells outside the chain are untouched and the heap grows by one cell. -/
theorem addTailCore_rep {h : Heap V} {l : list V} {as : List Nat} (v : V)
    (hr : represents h l as) :
    represents (listAddNodeTailCore h l v).1 (listAddNodeTailCore h l v).2
      (as ++ [h.length]) ∧
    valuesA (listAddNodeTailCore h l v).1 (as ++ [h.length]) =
      valuesA h as ++ [some v] ∧
    (listAddNodeTailCore h l v).1.length = h.length + 1 ∧
    (∀ x, x < h.length → x ∉ as →
      (listAddNodeTailCore h l v).1[x]? = h[x]?) := by
  obtain ⟨hh, ht, hl, hd, hs⟩ := hr
  have hmem := segOk_mem_lt hs
  have hfresh : h.length ∉ as := fun hx => by have := hmem _ hx; omega
  by_cases h0 : l.len = 0
  · have hnil : as = [] := List.length_eq_zero.mp (hl.symm.trans h0)
    subst hnil
    simp only [listAddNodeTailCore, if_pos h0]
    refine ⟨⟨rfl, by simp, by simp [h0], by simp, ?_⟩, ?_, by simp, ?_⟩
    · simp [segOk, concat_get_len]
    · simp [valuesA, concat_get_len]
    · intro x hx _; exact concat_get_lt h _ hx
  · have hne : as ≠ [] := by
      intro hnil; subst hnil; simp at hl; exact h0 hl
    obtain ⟨ys, t, hyst⟩ : ∃ ys t, as = ys ++ [t] := by
      rcases List.eq_nil_or_concat as with rfl | ⟨ys, t, hc⟩
      · exact absurd rfl hne
      · exact ⟨ys, t, by simpa [List.concat_eq_append] using hc⟩
    subst hyst
    have hts : (ys ++ [t]).getLast? = some t := List.getLast?_concat ys
    have htl : l.tail = some t := ht.trans hts
    rcases segOk_snoc_iff.mp hs with ⟨hys, tnd, htnd, htp, htn⟩
    have htlt : t < h.length := hmem t (by simp)
    have htys : t ∉ ys := by
      intro hty
      exact ((List.nodup_append.mp hd).2.2 hty) (by simp)
    simp only [listAddNodeTailCore, if_neg h0, htl, setNextOpt]
    set h1 : Heap V := h ++ [{ prev := some t, next := none, value := v }]
      with hh1
    have h1t : h1[t]? = some tnd := by
      rw [hh1, concat_get_lt h _ htlt, htnd]
    have h1new : h1[h.length]? =
        some { prev := some t, next := none, value := v } := by
      rw [hh1]; exact concat_get_len h _
    set h2 : Heap V := setNext h1 t (some h.length) with hh2
    have h2new : h2[h.length]? =
        some { prev := some t, next := none, value := v } := by
      rw [hh2, setNext, hupd_get_ne h1 t _ (by omega)]
      exact h1new
    have h2t : h2[t]? = some { tnd with next := some h.length } := by
      rw [hh2, setNext, hupd_get_self h1t]
    have h2ys : ∀ x ∈ ys, h2[x]? = h[x]? := by
      intro x hx
      have hxt : x ≠ t := fun hxe => htys (hxe ▸ hx)
      have hxl : x < h.length := hmem x (by simp [hx])
      rw [hh2, setNext, hupd_get_ne h1 t _ hxt, hh1, concat_get_lt h _ hxl]
    have h2frame : ∀ x, x < h.length → x ∉ ys ++ [t] → h2[x]? = h[x]? := by
      intro x hx hnx
      have hxt : x ≠ t := by simp at hnx; exact hnx.2
      rw [hh2, setNext, hupd_get_ne h1 t _ hxt, hh1, concat_get_lt h _ hx]
    refine ⟨⟨?_, ?_, ?_, ?_, ?_⟩, ?_, ?_, h2frame⟩
    · rw [hh, List.head?_append]
      cases ys <;> simp
    · simp
    · simp [hl]
    · rw [List.nodup_append]
      refine ⟨hd, by simp, ?_⟩
      intro x hx hm
      have hxe : x = h.length := by simpa using hm
      exact hfresh (hxe ▸ hx)
    · apply segOk_snoc_iff.mpr
      refine ⟨?_, _, h2new, by simp [hts], rfl⟩
      apply segOk_snoc_iff.mpr
      refine ⟨?_, _, h2t, by simpa using htp, rfl⟩
      rw [segOk_congr h2ys]
      exact hys
    · have hmapys : List.map (fun a => (h2[a]?).map listNode.value) ys =
          List.map (fun a => (h[a]?).map listNode.value) ys := by
        apply List.map_congr_left
        intro x hx; rw [h2ys x hx]
      simp only [valuesA, List.map_append, List.map_cons, List.map_nil]
      rw [hmapys, h2t, htnd, h2new]
      simp
    · rw [hh2, setNext, hupd_length, hh1]
      simp

/-- Lemma: `listDelNode` unsplices the node from the chain, updating head/tail
when the node was a boundary node. -/
theorem delNode_rep {h : Heap V} {l : list V} {xs ys : List Nat} {n : Nat}
    (hr : represents h l (xs ++ n :: ys)) :
    represents (listDelNode h l n).1 (listDelNode h l n).2 (xs ++ ys) := by
  obtain ⟨hh, ht, hl, hd, hs⟩ := hr
  have hmem := segOk_mem_lt hs
  rw [segOk_append, Bool.and_eq_true] at hs
  obtain ⟨hxs, hns⟩ := hs
  simp only [List.head?_cons, Option.or_some] at hxs
  rcases segOk_cons_iff.mp hns with ⟨nnd, hnnd, hnp, hnn, hys⟩
  simp only [Option.or_none] at hnp hnn
  have hd' := hd
  rw [List.nodup_append] at hd'
  obtain ⟨hdxs, hdnys, hdisj⟩ := hd'
  have hnys : n ∉ ys := (List.nodup_cons.mp hdnys).1
  have hysnd : ys.Nodup := (List.nodup_cons.mp hdnys).2
  cases ys with
  | nil =>
    -- the deleted node is the tail
    simp only [List.head?_nil] at hnn
    rcases List.eq_nil_or_concat xs with rfl | ⟨xs', p, hc⟩
    · -- sole node: head and tail are cleared
      simp only [List.getLast?_nil] at hnp
      simp only [listDelNode, hnnd, hnp, hnn]
      refine ⟨by simp [hnn], by simp [hnp], ?_, by simp, rfl⟩
      simp only [List.nil_append, List.length_cons, List.length_nil] at hl
      simp [hl]
    · have hxc : xs = xs' ++ [p] := by
        simpa [List.concat_eq_append] using hc
      subst hxc
      rw [List.getLast?_concat] at hnp
      rcases segOk_snoc_iff.mp hxs with ⟨hxs', pnd, hpnd, hpp, hpn⟩
      have hplt : p < h.length := hmem p (by simp)
      have hpxs' : p ∉ xs' := by
        intro hpx
        exact ((List.nodup_append.mp hdxs).2.2 hpx) (by simp)
      simp only [listDelNode, hnnd, hnp, hnn]
      set h1 : Heap V := setNext h p none with hh1
      have h1p : h1[p]? = some { pnd with next := none } := by
        rw [hh1, setNext, hupd_get_self hpnd]
      have h1xs' : ∀ x ∈ xs', h1[x]? = h[x]? := by
        intro x hx
        exact hupd_get_ne h p _ (fun hxe => hpxs' (hxe ▸ hx))
      refine ⟨?_, ?_, ?_, ?_, ?_⟩
      · rw [hh]; simp
      · simp [hnp]
      · simp only [List.append_nil]
        simp only [List.length_append, List.length_cons,
          List.length_nil] at hl ⊢
        omega
      · simp only [List.append_nil]
        exact hdxs
      · simp only [List.append_nil]
        apply segOk_snoc_iff.mpr
        refine ⟨?_, _, h1p, by simpa using hpp, rfl⟩
        rw [segOk_congr h1xs']
        exact hxs'
  | cons q ys' =>
    simp only [List.head?_cons] at hnn
    rcases segOk_cons_iff.mp hys with ⟨qnd, hqnd, hqp, hqn, hys'⟩
    have hqlt : q < h.length := hmem q (by simp)
    have hqys' : q ∉ ys' := (List.nodup_cons.mp hysnd).1
    rcases List.eq_nil_or_concat xs with rfl | ⟨xs', p, hc⟩
    · -- the deleted node is the head
      simp only [List.getLast?_nil] at hnp
      simp only [listDelNode, hnnd, hnp, hnn]
      set h1 : Heap V := setPrev h q none with hh1
      have h1q : h1[q]? = some { qnd with prev := none } := by
        rw [hh1, setPrev, hupd_get_self hqnd]
      have h1ys' : ∀ x ∈ ys', h1[x]? = h[x]? := by
        intro x hx
        exact hupd_get_ne h q _ (fun hxe => hqys' (hxe ▸ hx))
      refine ⟨by simp [hnn], ?_, ?_, ?_, ?_⟩
      · rw [ht]; simp
      · simp only [List.nil_append, List.length_cons] at hl ⊢
        omega
      · simpa using hysnd
      · simp only [List.nil_append]
        apply segOk_cons_iff.mpr
        refine ⟨_, h1q, rfl, by simpa using hqn, ?_⟩
        rw [segOk_congr h1ys']
        exact hys'
    · -- interior deletion: both neighbours are relinked
      have hxc : xs = xs' ++ [p] := by
        simpa [List.concat_eq_append] using hc
      subst hxc
      rw [List.getLast?_concat] at hnp
      rcases segOk_snoc_iff.mp hxs with ⟨hxs', pnd, hpnd, hpp, hpn⟩
      have hplt : p < h.length := hmem p (by simp)
      have hpxs' : p ∉ xs' := by
        intro hpx
        exact ((List.nodup_append.mp hdxs).2.2 hpx) (by simp)
      have hpq : p ≠ q := by
        intro hpe
        exact (hdisj (show p ∈ xs' ++ [p] by simp)) (by simp [hpe])
      simp only [listDelNode, hnnd, hnp, hnn]
      set h1 : Heap V := setNext h p (some q) with hh1
      set h2 : Heap V := setPrev h1 q (some p) with hh2
      have h1p : h1[p]? = some { pnd with next := some q } := by
        rw [hh1, setNext, hupd_get_self hpnd]
      have h1q : h1[q]? = some qnd := by
        rw [hh1, setNext, hupd_get_ne h p _ (Ne.symm hpq)]
        exact hqnd
      have h2p : h2[p]? = some { pnd with next := some q } := by
        rw [hh2, setPrev, hupd_get_ne h1 q _ hpq]
        exact h1p
      have h2q : h2[q]? = some { qnd with prev := some p } := by
        rw [hh2, setPrev, hupd_get_self h1q]
      have h2xs' : ∀ x ∈ xs', h2[x]? = h[x]? := by
        intro x hx
        have hxp : x ≠ p := fun hxe => hpxs' (hxe ▸ hx)
        have hxq : x ≠ q := by
          intro hxe
          exact (hdisj (show x ∈ xs' ++ [p] by simp [hx])) (by simp [hxe])
        rw [hh2, setPrev, hupd_get_ne h1 q _ hxq, hh1, setNext,
          hupd_get_ne h p _ hxp]
      have h2ys' : ∀ x ∈ ys', h2[x]? = h[x]? := by
        intro x hx
        have hxq : x ≠ q := fun hxe => hqys' (hxe ▸ hx)
        have hxp : x ≠ p := by
          intro hxe
          exact (hdisj (show x ∈ xs' ++ [p] by simp [hxe]))
            (by simp [hx])
        rw [hh2, setPrev, hupd_get_ne h1 q _ hxq, hh1, setNext,
          hupd_get_ne h p _ hxp]
      refine ⟨?_, ?_, ?_, ?_, ?_⟩
      · rw [hh]
        cases xs' <;> simp
      · rw [ht]; simp
      · simp only [List.length_append, List.length_cons] at hl ⊢
        omega
      · rw [List.nodup_append] at hd ⊢
        refine ⟨hd.1, hysnd, ?_⟩
        intro x hx
        have hxno := hd.2.2 hx
        simp only [List.mem_cons] at hxno
        intro hm
        rcases List.mem_cons.mp hm with hm | hm
        · exact hxno (Or.inr (Or.inl hm))
        · exact hxno (Or.inr (Or.inr hm))
      · rw [segOk_append, Bool.and_eq_true]
        constructor
        · apply segOk_snoc_iff.mpr
          simp only [List.head?_cons, Option.or_some]
          refine ⟨?_, _, h2p, by simpa using hpp, rfl⟩
          rw [segOk_congr h2xs']
          exact hxs'
        · apply segOk_cons_iff.mpr
          simp only [List.getLast?_concat, Option.or_some]
          refine ⟨_, h2q, rfl, by simpa using hqn, ?_⟩
          rw [segOk_congr h2ys']
          exact hys'

/-- Lemma: `listInsertNode` with `after` true splices the fresh node right after
the anchor. -/
theorem insertAfter_rep {h : Heap V} {l : list V} {xs ys : List Nat}
    {o : Nat} (v : V) (hr : represents h l (xs ++ o :: ys)) :
    represents (listInsertNodeCore h l o v true).1
      (listInsertNodeCore h l o v true).2 (xs ++ o :: h.length :: ys) := by
  obtain ⟨hh, ht, hl, hd, hs⟩ := hr
  have hmem := segOk_mem_lt hs
  have hfresh : h.length ∉ xs ++ o :: ys := fun hx => by
    have := hmem _ hx; omega
  rw [segOk_append, Bool.and_eq_true] at hs
  obtain ⟨hxs, hos⟩ := hs
  simp only [List.head?_cons, Option.or_some] at hxs
  rcases segOk_cons_iff.mp hos with ⟨ond, hond, hop, hon, hys⟩
  simp only [Option.or_none] at hop hon
  have hd' := hd
  rw [List.nodup_append] at hd'
  obtain ⟨hdxs, hdoys, hdisj⟩ := hd'
  have hoys : o ∉ ys := (List.nodup_cons.mp hdoys).1
  have hoxs : o ∉ xs := fun hx => (hdisj hx) (by simp)
  have holt : o < h.length := hmem o (by simp)
  cases ys with
  | nil =>
    -- anchor is the tail: the new node becomes the tail
    simp only [List.head?_nil] at hon
    have htail : l.tail = some o := by
      rw [ht]; simp
    simp only [listInsertNodeCore, hond, htail, hon, setNextOpt,
      setPrevOpt, eq_self_iff_true, if_true]
    set h1 : Heap V :=
      h ++ [{ prev := some o, next := none, value := v }] with hh1
    have h1o : h1[o]? = some ond := by
      rw [hh1, concat_get_lt h _ holt, hond]
    have h1new : h1[h.length]? =
        some { prev := some o, next := none, value := v } := by
      rw [hh1]; exact concat_get_len h _
    set h2 : Heap V := setNext h1 o (some h.length) with hh2
    have h2o : h2[o]? = some { ond with next := some h.length } := by
      rw [hh2, setNext, hupd_get_self h1o]
    have h2new : h2[h.length]? =
        some { prev := some o, next := none, value := v } := by
      rw [hh2, setNext, hupd_get_ne h1 o _ (by omega)]
      exact h1new
    have h2xs : ∀ x ∈ xs, h2[x]? = h[x]? := by
      intro x hx
      have hxo : x ≠ o := fun hxe => hoxs (hxe ▸ hx)
      have hxl : x < h.length := hmem x (by simp [hx])
      rw [hh2, setNext, hupd_get_ne h1 o _ hxo, hh1, concat_get_lt h _ hxl]
    refine ⟨?_, ?_, ?_, ?_, ?_⟩
    · rw [hh]; cases xs <;> simp
    · simp
    · simp only [List.length_append, List.length_cons] at hl ⊢
      omega
    · rw [List.nodup_append] at hd ⊢
      refine ⟨hd.1, ?_, ?_⟩
      · simp only [List.nodup_cons]
        refine ⟨?_, by simp⟩
        intro hm
        have : o = List.length h := by simpa using hm
        omega
      · intro x hx hm
        have hxl : x < h.length := hmem x (by simp [hx])
        rcases List.mem_cons.mp hm with hm | hm
        · exact (hdisj hx) (by simp [hm])
        · have : x = h.length := by simpa using hm
          omega
    · rw [segOk_append, Bool.and_eq_true]
      constructor
      · rw [segOk_congr h2xs]
        simpa using hxs
      · apply segOk_cons_iff.mpr
        refine ⟨_, h2o, by simpa using hop, by simp, ?_⟩
        apply segOk_cons_iff.mpr
        exact ⟨_, h2new, rfl, by simp, rfl⟩
  | cons q ys' =>
    simp only [List.head?_cons] at hon
    rcases segOk_cons_iff.mp hys with ⟨qnd, hqnd, hqp, hqn, hys'⟩
    have hqlt : q < h.length := hmem q (by simp)
    have hqys' : q ∉ ys' := (List.nodup_cons.mp (List.nodup_cons.mp hdoys).2).1
    have hoq : o ≠ q := fun hoe => hoys (by simp [hoe])
    have htail : ¬ l.tail = some o := by
      rw [ht]
      obtain ⟨t, htq⟩ : ∃ t, (q :: ys').getLast? = some t := by
        cases hg : (q :: ys').getLast? with
        | none => simp at hg
        | some t => exact ⟨t, rfl⟩
      have htmem : t ∈ q :: ys' := List.mem_of_getLast?_eq_some htq
      have hto : t ≠ o := fun hte => hoys (hte ▸ htmem)
      simp [List.getLast?_append, htq, hto]
    simp only [listInsertNodeCore, hond, hon, setNextOpt, setPrevOpt,
      eq_self_iff_true, if_true, htail, if_false]
    set h1 : Heap V :=
      h ++ [{ prev := some o, next := some q, value := v }] with hh1
    have h1o : h1[o]? = some ond := by
      rw [hh1, concat_get_lt h _ holt, hond]
    have h1q : h1[q]? = some qnd := by
      rw [hh1, concat_get_lt h _ hqlt, hqnd]
    have h1new : h1[h.length]? =
        some { prev := some o, next := some q, value := v } := by
      rw [hh1]; exact concat_get_len h _
    set h2 : Heap V := setNext h1 o (some h.length) with hh2
    have h2o : h2[o]? = some { ond with next := some h.length } := by
      rw [hh2, setNext, hupd_get_self h1o]
    have h2q : h2[q]? = some qnd := by
      rw [hh2, setNext, hupd_get_ne h1 o _ (Ne.symm hoq)]
      exact h1q
    have h2new : h2[h.length]? =
        some { prev := some o, next := some q, value := v } := by
      rw [hh2, setNext, hupd_get_ne h1 o _ (by omega)]
      exact h1new
    set h3 : Heap V := setPrev h2 q (some h.length) with hh3
    have h3q : h3[q]? = some { qnd with prev := some h.length } := by
      rw [hh3, setPrev, hupd_get_self h2q]
    have h3o : h3[o]? = some { ond with next := some h.length } := by
      rw [hh3, setPrev, hupd_get_ne h2 q _ hoq]
      exact h2o
    have h3new : h3[h.length]? =
        some { prev := some o, next := some q, value := v } := by
      rw [hh3, setPrev, hupd_get_ne h2 q _ (by omega)]
      exact h2new
    have h3xs : ∀ x ∈ xs, h3[x]? = h[x]? := by
      intro x hx
      have hxo : x ≠ o := fun hxe => hoxs (hxe ▸ hx)
      have hxq : x ≠ q := fun hxe => (hdisj hx) (by simp [hxe])
      have hxl : x < h.length := hmem x (by simp [hx])
      rw [hh3, setPrev, hupd_get_ne h2 q _ hxq, hh2, setNext,
        hupd_get_ne h1 o _ hxo, hh1, concat_get_lt h _ hxl]
    have h3ys' : ∀ x ∈ ys', h3[x]? = h[x]? := by
      intro x hx
      have hxo : x ≠ o := fun hxe => hoys (by simp [hxe ▸ hx])
      have hxq : x ≠ q := fun hxe => hqys' (hxe ▸ hx)
      have hxl : x < h.length := hmem x (by simp [hx])
      rw [hh3, setPrev, hupd_get_ne h2 q _ hxq, hh2, setNext,
        hupd_get_ne h1 o _ hxo, hh1, concat_get_lt h _ hxl]
    refine ⟨?_, ?_, ?_, ?_, ?_⟩
    · rw [hh]; cases xs <;> simp
    · rw [ht]; simp
    · simp only [List.length_append, List.length_cons] at hl ⊢
      omega
    · rw [List.nodup_append] at hd ⊢
      refine ⟨hd.1, ?_, ?_⟩
      · have hys0 := hd.2.1
        rw [List.nodup_cons] at hys0 ⊢
        refine ⟨?_, ?_⟩
        · intro hm
          rcases List.mem_cons.mp hm with hm | hm
          · omega
          · exact hys0.1 (by simp [hm])
        · rw [List.nodup_cons]
          refine ⟨?_, hys0.2⟩
          intro hm
          have := hmem (h.length) (by simp [hm])
          omega
      · intro x hx hm
        have hxl : x < h.length := hmem x (by simp [hx])
        rcases List.mem_cons.mp hm with hm | hm
        · exact (hdisj hx) (by simp [hm])
        · rcases List.mem_cons.mp hm with hm | hm
          · omega
          · exact (hdisj hx) (by simp [hm])
    · rw [segOk_append, Bool.and_eq_true]
      constructor
      · rw [segOk_congr h3xs]
        simpa using hxs
      · apply segOk_cons_iff.mpr
        refine ⟨_, h3o, by simpa using hop, by simp, ?_⟩
        apply segOk_cons_iff.mpr
        refine ⟨_, h3new, rfl, by simp, ?_⟩
        apply segOk_cons_iff.mpr
        refine ⟨_, h3q, rfl, by simpa using hqn, ?_⟩
        rw [segOk_congr h3ys']
        exact hys'

/-- Lemma: `listInsertNode` with `after` false splices the fresh node right
before the anchor. -/
theorem insertBefore_rep {h : Heap V} {l : list V} {xs ys : List Nat}
    {o : Nat} (v : V) (hr : represents h l (xs ++ o :: ys)) :
    represents (listInsertNodeCore h l o v false).1
      (listInsertNodeCore h l o v false).2 (xs ++ h.length :: o :: ys) := by
  obtain ⟨hh, ht, hl, hd, hs⟩ := hr
  have hmem := segOk_mem_lt hs
  rw [segOk_append, Bool.and_eq_true] at hs
  obtain ⟨hxs, hos⟩ := hs
  simp only [List.head?_cons, Option.or_some] at hxs
  rcases segOk_cons_iff.mp hos with ⟨ond, hond, hop, hon, hys⟩
  simp only [Option.or_none] at hop hon
  have hd' := hd
  rw [List.nodup_append] at hd'
  obtain ⟨hdxs, hdoys, hdisj⟩ := hd'
  have hoys : o ∉ ys := (List.nodup_cons.mp hdoys).1
  have hoxs : o ∉ xs := fun hx => (hdisj hx) (by simp)
  have holt : o < h.length := hmem o (by simp)
  have hysfacts : ∀ x ∈ ys, x ≠ o ∧ x < h.length := by
    intro x hx
    exact ⟨fun hxe => hoys (hxe ▸ hx), hmem x (by simp [hx])⟩
  rcases List.eq_nil_or_concat xs with rfl | ⟨xs', p, hc⟩
  · -- anchor is the head: the new node becomes the head
    simp only [List.getLast?_nil] at hop
    have hhead : l.head = some o := by rw [hh]; simp
    simp only [listInsertNodeCore, hond, hop, hhead, setNextOpt,
      setPrevOpt, eq_self_iff_true, if_true, Bool.false_eq_true,
      if_false]
    set h1 : Heap V :=
      h ++ [{ prev := none, next := some o, value := v }] with hh1
    have h1o : h1[o]? = some ond := by
      rw [hh1, concat_get_lt h _ holt, hond]
    have h1new : h1[h.length]? =
        some { prev := none, next := some o, value := v } := by
      rw [hh1]; exact concat_get_len h _
    set h2 : Heap V := setPrev h1 o (some h.length) with hh2
    have h2o : h2[o]? = some { ond with prev := some h.length } := by
      rw [hh2, setPrev, hupd_get_self h1o]
    have h2new : h2[h.length]? =
        some { prev := none, next := some o, value := v } := by
      rw [hh2, setPrev, hupd_get_ne h1 o _ (by omega)]
      exact h1new
    have h2ys : ∀ x ∈ ys, h2[x]? = h[x]? := by
      intro x hx
      obtain ⟨hxo, hxl⟩ := hysfacts x hx
      rw [hh2, setPrev, hupd_get_ne h1 o _ hxo, hh1, concat_get_lt h _ hxl]
    refine ⟨rfl, ?_, ?_, ?_, ?_⟩
    · rw [ht]; simp
    · simp only [List.nil_append, List.length_cons] at hl ⊢
      omega
    · simp only [List.nil_append, List.nodup_cons]
      refine ⟨?_, hoys, (List.nodup_cons.mp hdoys).2⟩
      intro hm
      have := hmem (List.length h) (by simp [hm])
      omega
    · simp only [List.nil_append]
      apply segOk_cons_iff.mpr
      refine ⟨_, h2new, rfl, by simp, ?_⟩
      apply segOk_cons_iff.mpr
      refine ⟨_, h2o, rfl, by simpa using hon, ?_⟩
      rw [segOk_congr h2ys]
      exact hys
  · have hxc : xs = xs' ++ [p] := by
      simpa [List.concat_eq_append] using hc
    subst hxc
    rw [List.getLast?_concat] at hop
    rcases segOk_snoc_iff.mp hxs with ⟨hxs', pnd, hpnd, hpp, hpn⟩
    have hplt : p < h.length := hmem p (by simp)
    have hpo : p ≠ o := fun hpe => hoxs (hpe ▸ (by simp : p ∈ xs' ++ [p]))
    have hpxs' : p ∉ xs' := by
      intro hpx
      exact ((List.nodup_append.mp hdxs).2.2 hpx) (by simp)
    have hhead : ¬ l.head = some o := by
      rw [hh]
      cases xs' with
      | nil =>
        simp only [List.nil_append, List.cons_append, List.head?_cons]
        intro hm
        exact hpo (by simpa using hm)
      | cons c cs =>
        simp only [List.cons_append, List.head?_cons]
        intro hm
        have hco : c = o := by simpa using hm
        exact hoxs (hco ▸ (show c ∈ (c :: cs) ++ [p] by simp))
    simp only [listInsertNodeCore, hond, hop, hhead, setNextOpt, setPrevOpt,
      Bool.false_eq_true, if_false, eq_self_iff_true, if_true]
    set h1 : Heap V :=
      h ++ [{ prev := some p, next := some o, value := v }] with hh1
    have h1o : h1[o]? = some ond := by
      rw [hh1, concat_get_lt h _ holt, hond]
    have h1p : h1[p]? = some pnd := by
      rw [hh1, concat_get_lt h _ hplt, hpnd]
    have h1new : h1[h.length]? =
        some { prev := some p, next := some o, value := v } := by
      rw [hh1]; exact concat_get_len h _
    set h2 : Heap V := setNext h1 p (some h.length) with hh2
    have h2p : h2[p]? = some { pnd with next := some h.length } := by
      rw [hh2, setNext, hupd_get_self h1p]
    have h2o : h2[o]? = some ond := by
      rw [hh2, setNext, hupd_get_ne h1 p _ (Ne.symm hpo)]
      exact h1o
    have h2new : h2[h.length]? =
        some { prev := some p, next := some o, value := v } := by
      rw [hh2, setNext, hupd_get_ne h1 p _ (by omega)]
      exact h1new
    set h3 : Heap V := setPrev h2 o (some h.length) with hh3
    have h3o : h3[o]? = some { ond with prev := some h.length } := by
      rw [hh3, setPrev, hupd_get_self h2o]
    have h3p : h3[p]? = some { pnd with next := some h.length } := by
      rw [hh3, setPrev, hupd_get_ne h2 o _ hpo]
      exact h2p
    have h3new : h3[h.length]? =
        some { prev := some p, next := some o, value := v } := by
      rw [hh3, setPrev, hupd_get_ne h2 o _ (by omega)]
      exact h2new
    have h3xs' : ∀ x ∈ xs', h3[x]? = h[x]? := by
      intro x hx
      have hxo : x ≠ o := fun hxe => hoxs (hxe ▸ (by simp [hx]))
      have hxp : x ≠ p := fun hxe => hpxs' (hxe ▸ hx)
      have hxl : x < h.length := hmem x (by simp [hx])
      rw [hh3, setPrev, hupd_get_ne h2 o _ hxo, hh2, setNext,
        hupd_get_ne h1 p _ hxp, hh1, concat_get_lt h _ hxl]
    have h3ys : ∀ x ∈ ys, h3[x]? = h[x]? := by
      intro x hx
      obtain ⟨hxo, hxl⟩ := hysfacts x hx
      have hxp : x ≠ p := by
        intro hxe
        exact (hdisj (show p ∈ xs' ++ [p] by simp)) (by simp [hxe ▸ hx])
      rw [hh3, setPrev, hupd_get_ne h2 o _ hxo, hh2, setNext,
        hupd_get_ne h1 p _ hxp, hh1, concat_get_lt h _ hxl]
    refine ⟨?_, ?_, ?_, ?_, ?_⟩
    · rw [hh]; cases xs' <;> simp
    · rw [ht]; simp
    · simp only [List.length_append, List.length_cons] at hl ⊢
      omega
    · rw [List.nodup_append] at hd ⊢
      refine ⟨hd.1, ?_, ?_⟩
      · simp only [List.nodup_cons]
        refine ⟨?_, hoys, (List.nodup_cons.mp hdoys).2⟩
        intro hm
        have := hmem (List.length h) (by simp [hm])
        omega
      · intro x hx hm
        have hxl : x < h.length := hmem x (List.mem_append.mpr (Or.inl hx))
        rcases List.mem_cons.mp hm with hm | hm
        · omega
        · exact (hdisj hx) hm
    · rw [segOk_append, Bool.and_eq_true]
      constructor
      · apply segOk_snoc_iff.mpr
        simp only [List.head?_cons, Option.or_some]
        refine ⟨?_, _, h3p, by simpa using hpp, rfl⟩
        rw [segOk_congr h3xs']
        exact hxs'
      · apply segOk_cons_iff.mpr
        simp only [List.getLast?_concat, Option.or_some]
        refine ⟨_, h3new, rfl, by simp, ?_⟩
        apply segOk_cons_iff.mpr
        refine ⟨_, h3o, rfl, by simpa using hon, ?_⟩
        rw [segOk_congr h3ys]
        exact hys

/-- Lemma: `listRotate` on a list of at least two nodes moves the tail node to
the front of the chain and never touches any stored value. -/
theorem rotate_rep {h : Heap V} {l : list V} {xs : List Nat} {t : Nat}
    (hne : xs ≠ []) (hr : represents h l (xs ++ [t])) :
    represents (listRotate h l).1 (listRotate h l).2 (t :: xs) ∧
    (∀ bs, valuesA (listRotate h l).1 bs = valuesA h bs) := by
  obtain ⟨hh, ht, hl, hd, hs⟩ := hr
  have hmem := segOk_mem_lt hs
  rcases segOk_snoc_iff.mp hs with ⟨hxs0, tnd, htnd, htp, htn⟩
  simp only [Option.or_none] at htp
  cases xs with
  | nil => exact absurd rfl hne
  | cons b xs₁ =>
  obtain ⟨p, hp⟩ : ∃ p, (b :: xs₁).getLast? = some p := by
    cases hg : (b :: xs₁).getLast? with
    | none => simp at hg
    | some p => exact ⟨p, rfl⟩
  rw [hp] at htp
  have hlen2 : ¬ l.len ≤ 1 := by
    rw [hl]; simp
  have htl : l.tail = some t := ht.trans (List.getLast?_concat _)
  have hhd : l.head = some b := by rw [hh]; simp
  have hprev : prevOf h (some t) = some p := by
    simp [prevOf, htnd, htp]
  have hnodup : (t :: b :: xs₁).Nodup :=
    (List.perm_append_singleton t (b :: xs₁)).nodup hd
  have htb : t ≠ b := by
    have := List.nodup_cons.mp hnodup
    exact fun hte => this.1 (by simp [hte])
  have htxs₁ : t ∉ xs₁ := by
    have := List.nodup_cons.mp hnodup
    exact fun hte => this.1 (by simp [hte])
  have htp' : t ≠ p := by
    have hpm : p ∈ b :: xs₁ := List.mem_of_getLast?_eq_some hp
    intro hte
    exact (List.nodup_cons.mp hnodup).1 (hte ▸ hpm)
  have hblt : b < h.length := hmem b (by simp)
  have htlt : t < h.length := hmem t (by simp)
  simp only [listRotate, htl, hlen2, if_false, hprev, hhd, setNextOpt,
    setPrevOpt]
  set h1 : Heap V := setNext h p none with hh1
  set h2 : Heap V := setPrev h1 b (some t) with hh2
  set h3 : Heap V := setPrev h2 t none with hh3
  set h4 : Heap V := setNext h3 t (some b) with hh4
  have hvals : ∀ bs, valuesA h4 bs = valuesA h bs := by
    intro bs
    rw [hh4, valuesA_setNext, hh3, valuesA_setPrev, hh2, valuesA_setPrev,
      hh1, valuesA_setNext]
  refine ⟨⟨rfl, by rw [List.getLast?_cons_cons, hp], ?_, hnodup, ?_⟩,
    hvals⟩
  · rw [hl]; simp
  · -- link structure after the four pointer writes
    rcases List.eq_nil_or_concat xs₁ with h1nil | ⟨mid, p', hc⟩
    · -- two-node list: the old head is also the new tail
      subst h1nil
      have hpb : b = p := by
        simp at hp
        omega
      subst hpb
      rcases segOk_cons_iff.mp hxs0 with ⟨bnd, hbnd, hbp, hbn, -⟩
      simp only [List.head?_nil, Option.or_some] at hbn
      have h1b : h1[b]? = some { bnd with next := none } := by
        rw [hh1, setNext, hupd_get_self hbnd]
      have h2b : h2[b]? =
          some { prev := some t, next := none, value := bnd.value } := by
        rw [hh2, setPrev, hupd_get_self h1b]
      have h2t : h2[t]? = some tnd := by
        rw [hh2, setPrev, hupd_get_ne h1 b _ htb, hh1, setNext,
          hupd_get_ne h b _ htb]
        exact htnd
      have h3t : h3[t]? = some { tnd with prev := none } := by
        rw [hh3, setPrev, hupd_get_self h2t]
      have h4t : h4[t]? =
          some { prev := none, next := some b, value := tnd.value } := by
        rw [hh4, setNext, hupd_get_self h3t]
      have h4b : h4[b]? =
          some { prev := some t, next := none, value := bnd.value } := by
        rw [hh4, setNext, hupd_get_ne h3 t _ htb.symm, hh3, setPrev,
          hupd_get_ne h2 t _ htb.symm]
        exact h2b
      apply segOk_cons_iff.mpr
      refine ⟨_, h4t, rfl, by simp, ?_⟩
      apply segOk_cons_iff.mpr
      exact ⟨_, h4b, rfl, by simp, rfl⟩
    · -- at least three nodes
      have hxc : xs₁ = mid ++ [p'] := by
        simpa [List.concat_eq_append] using hc
      subst hxc
      have hpp' : p = p' := by
        have : (b :: (mid ++ [p'])).getLast? = some p' := by
          rw [List.getLast?_cons]
          simp [List.getLast?_concat]
        rw [this] at hp
        exact (Option.some.injEq _ _ ▸ hp.symm :)
      subst hpp'
      rcases segOk_cons_iff.mp hxs0 with ⟨bnd, hbnd, hbp, hbn, hmid1⟩
      rcases segOk_snoc_iff.mp hmid1 with ⟨hmid0, pnd, hpnd, hppv, hpnx⟩
      have hbp' : b ≠ p := by
        intro hbe
        have := List.nodup_cons.mp (List.nodup_cons.mp hnodup).2
        exact this.1 (by simp [hbe])
      have hpmid : p ∉ mid := by
        have hnd₁ : (mid ++ [p]).Nodup :=
          (List.nodup_cons.mp (List.nodup_cons.mp hnodup).2).2
        intro hpx
        exact ((List.nodup_append.mp hnd₁).2.2 hpx) (by simp)
      have hbmid : b ∉ mid := by
        have := List.nodup_cons.mp (List.nodup_cons.mp hnodup).2
        exact fun hbx => this.1 (by simp [hbx])
      have htmid : t ∉ mid := fun htx => htxs₁ (by simp [htx])
      have hplt : p < h.length := hmem p (by simp)
      have h1p : h1[p]? = some { pnd with next := none } := by
        rw [hh1, setNext, hupd_get_self hpnd]
      have h1b : h1[b]? = some bnd := by
        rw [hh1, setNext, hupd_get_ne h p _ hbp']
        exact hbnd
      have h2b : h2[b]? = some { bnd with prev := some t } := by
        rw [hh2, setPrev, hupd_get_self h1b]
      have h2t : h2[t]? = some tnd := by
        rw [hh2, setPrev, hupd_get_ne h1 b _ htb, hh1, setNext,
          hupd_get_ne h p _ htp']
        exact htnd
      have h3t : h3[t]? = some { tnd with prev := none } := by
        rw [hh3, setPrev, hupd_get_self h2t]
      have h4t : h4[t]? =
          some { prev := none, next := some b, value := tnd.value } := by
        rw [hh4, setNext, hupd_get_self h3t]
      have h4b : h4[b]? = some { bnd with prev := some t } := by
        rw [hh4, setNext, hupd_get_ne h3 t _ htb.symm, hh3, setPrev,
          hupd_get_ne h2 t _ htb.symm]
        exact h2b
      have h4p : h4[p]? = some { pnd with next := none } := by
        rw [hh4, setNext, hupd_get_ne h3 t _ htp'.symm, hh3, setPrev,
          hupd_get_ne h2 t _ htp'.symm, hh2, setPrev,
          hupd_get_ne h1 b _ hbp'.symm]
        exact h1p
      have h4mid : ∀ x ∈ mid, h4[x]? = h[x]? := by
        intro x hx
        have hxt : x ≠ t := fun hxe => htmid (hxe ▸ hx)
        have hxb : x ≠ b := fun hxe => hbmid (hxe ▸ hx)
        have hxp : x ≠ p := fun hxe => hpmid (hxe ▸ hx)
        rw [hh4, setNext, hupd_get_ne h3 t _ hxt, hh3, setPrev,
          hupd_get_ne h2 t _ hxt, hh2, setPrev, hupd_get_ne h1 b _ hxb,
          hh1, setNext, hupd_get_ne h p _ hxp]
      apply segOk_cons_iff.mpr
      refine ⟨_, h4t, rfl, by simp, ?_⟩
      apply segOk_cons_iff.mpr
      refine ⟨_, h4b, rfl, ?_, ?_⟩
      · simp only [Option.or_none]
        rw [hbn]
        cases mid <;> simp
      · apply segOk_snoc_iff.mpr
        refine ⟨?_, _, h4p, by simpa using hppv, rfl⟩
        rw [segOk_congr h4mid]
        exact hmid0

/-- Lemma: `listJoin` splices the source chain onto the end of the destination
chain, empties the source header and never touches any stored value. -/
theorem join_rep {h : Heap V} {l o : list V} {as bs : List Nat}
    (hrl : represents h l as) (hro : represents h o bs)
    (hdisj : as.Disjoint bs) :
    represents (listJoin h l o).1 (listJoin h l o).2.1 (as ++ bs) ∧
    (listJoin h l o).2.2 =
      { o with head := none, tail := none, len := 0 } ∧
    (∀ cs, valuesA (listJoin h l o).1 cs = valuesA h cs) := by
  obtain ⟨hhl, htl, hll, hdl, hsl⟩ := hrl
  obtain ⟨hho, hto, hlo, hdo, hso⟩ := hro
  have hmeml := segOk_mem_lt hsl
  have hmemo := segOk_mem_lt hso
  have hnodup : (as ++ bs).Nodup := by
    rw [List.nodup_append]
    exact ⟨hdl, hdo, hdisj⟩
  rcases List.eq_nil_or_concat as with rfl | ⟨ys, t, hc⟩
  · -- empty destination
    have htln : l.tail = none := by simpa using htl
    cases bs with
    | nil =>
      have hhon : o.head = none := by simpa using hho
      have hton : o.tail = none := by simpa using hto
      simp only [listJoin, hhon, htln, hton, setPrevOpt]
      refine ⟨⟨?_, ?_, ?_, ?_, ?_⟩, ?_, ?_⟩
      · trivial
      · trivial
      · simp only [List.length_nil] at hll hlo
        simp [hll, hlo]
      · trivial
      · trivial
      · trivial
      · intro cs; trivial
    | cons q bs' =>
      have hhoq : o.head = some q := by simpa using hho
      rcases segOk_cons_iff.mp hso with ⟨qnd, hqnd, hqp, hqn, hbs'⟩
      have hqbs' : q ∉ bs' := (List.nodup_cons.mp hdo).1
      obtain ⟨tb, htb⟩ : ∃ tb, (q :: bs').getLast? = some tb := by
        cases hg : (q :: bs').getLast? with
        | none => simp at hg
        | some tb => exact ⟨tb, rfl⟩
      have htoq : o.tail = some tb := hto.trans htb
      simp only [listJoin, hhoq, htln, htoq, setPrevOpt]
      set h1 : Heap V := setPrev h q none with hh1
      have h1q : h1[q]? = some { qnd with prev := none } := by
        rw [hh1, setPrev, hupd_get_self hqnd]
      have h1bs' : ∀ x ∈ bs', h1[x]? = h[x]? := by
        intro x hx
        exact hupd_get_ne h q _ (fun hxe => hqbs' (hxe ▸ hx))
      refine ⟨⟨?_, ?_, ?_, ?_, ?_⟩, ?_, ?_⟩
      · trivial
      · simpa using htb.symm
      · simp only [List.length_nil] at hll
        simp only [List.nil_append]
        omega
      · simpa using hdo
      · simp only [List.nil_append]
        apply segOk_cons_iff.mpr
        refine ⟨_, h1q, rfl, by simpa using hqn, ?_⟩
        rw [segOk_congr h1bs']
        exact hbs'
      · trivial
      · intro cs
        rw [hh1, valuesA_setPrev]
  · have hxc : as = ys ++ [t] := by
      simpa [List.concat_eq_append] using hc
    subst hxc
    have htlt : l.tail = some t := htl.trans (List.getLast?_concat _)
    rcases segOk_snoc_iff.mp hsl with ⟨hys, tnd, htnd, htp, htn⟩
    have htmm : t < h.length := hmeml t (by simp)
    have htys : t ∉ ys := by
      intro hty
      exact ((List.nodup_append.mp hdl).2.2 hty) (by simp)
    cases bs with
    | nil =>
      have hhon : o.head = none := by simpa using hho
      have hton : o.tail = none := by simpa using hto
      simp only [listJoin, hhon, htlt, hton, setPrevOpt]
      set h1 : Heap V := setNext h t none with hh1
      have h1t : h1[t]? = some { tnd with next := none } := by
        rw [hh1, setNext, hupd_get_self htnd]
      have h1ys : ∀ x ∈ ys, h1[x]? = h[x]? := by
        intro x hx
        exact hupd_get_ne h t _ (fun hxe => htys (hxe ▸ hx))
      refine ⟨⟨?_, ?_, ?_, ?_, ?_⟩, ?_, ?_⟩
      · simp only [List.append_nil]
        exact hhl
      · simp only [List.append_nil]
        exact (List.getLast?_concat ys).symm
      · simp only [List.length_nil] at hlo
        simp only [List.append_nil]
        omega
      · simpa using hdl
      · simp only [List.append_nil]
        apply segOk_snoc_iff.mpr
        refine ⟨?_, _, h1t, by simpa using htp, rfl⟩
        rw [segOk_congr h1ys]
        exact hys
      · trivial
      · intro cs
        rw [hh1, valuesA_setNext]
    | cons q bs' =>
      have hhoq : o.head = some q := by simpa using hho
      rcases segOk_cons_iff.mp hso with ⟨qnd, hqnd, hqp, hqn, hbs'⟩
      have hqbs' : q ∉ bs' := (List.nodup_cons.mp hdo).1
      obtain ⟨tb, htb⟩ : ∃ tb, (q :: bs').getLast? = some tb := by
        cases hg : (q :: bs').getLast? with
        | none => simp at hg
        | some tb => exact ⟨tb, rfl⟩
      have htoq : o.tail = some tb := hto.trans htb
      have htq : t ≠ q := by
        intro hte
        exact (hdisj (show t ∈ ys ++ [t] by simp)) (by simp [hte])
      simp only [listJoin, hhoq, htlt, htoq, setPrevOpt]
      set h1 : Heap V := setPrev h q (some t) with hh1
      set h2 : Heap V := setNext h1 t (some q) with hh2
      have h1q : h1[q]? = some { qnd with prev := some t } := by
        rw [hh1, setPrev, hupd_get_self hqnd]
      have h1t : h1[t]? = some tnd := by
        rw [hh1, setPrev, hupd_get_ne h q _ htq]
        exact htnd
      have h2t : h2[t]? = some { tnd with next := some q } := by
        rw [hh2, setNext, hupd_get_self h1t]
      have h2q : h2[q]? = some { qnd with prev := some t } := by
        rw [hh2, setNext, hupd_get_ne h1 t _ (Ne.symm htq)]
        exact h1q
      have h2ys : ∀ x ∈ ys, h2[x]? = h[x]? := by
        intro x hx
        have hxt : x ≠ t := fun hxe => htys (hxe ▸ hx)
        have hxq : x ≠ q := by
          intro hxe
          exact (hdisj (show x ∈ ys ++ [t] by simp [hx])) (by simp [hxe])
        rw [hh2, setNext, hupd_get_ne h1 t _ hxt, hh1, setPrev,
          hupd_get_ne h q _ hxq]
      have h2bs' : ∀ x ∈ bs', h2[x]? = h[x]? := by
        intro x hx
        have hxq : x ≠ q := fun hxe => hqbs' (hxe ▸ hx)
        have hxt : x ≠ t := by
          intro hxe
          exact (hdisj (show t ∈ ys ++ [t] by simp)) (by simp [hxe ▸ hx])
        rw [hh2, setNext, hupd_get_ne h1 t _ hxt, hh1, setPrev,
          hupd_get_ne h q _ hxq]
      refine ⟨⟨?_, ?_, ?_, hnodup, ?_⟩, by trivial, ?_⟩
      · rw [hhl]; cases ys <;> simp
      · rw [List.getLast?_append]
        simp [htb]
      · simp only [List.length_append, List.length_cons] at hll hlo ⊢
        omega
      · rw [segOk_append, Bool.and_eq_true]
        constructor
        · apply segOk_snoc_iff.mpr
          simp only [List.head?_cons, Option.or_some]
          refine ⟨?_, _, h2t, by simpa using htp, rfl⟩
          rw [segOk_congr h2ys]
          exact hys
        · apply segOk_cons_iff.mpr
          simp only [List.getLast?_concat, Option.or_some]
          refine ⟨_, h2q, rfl, by simpa using hqn, ?_⟩
          rw [segOk_congr h2bs']
          exact hbs'
      · intro cs
        rw [hh2, valuesA_setNext, hh1, valuesA_setPrev]

/-- Lemma: `listAddNodeTail` leaves the hooks alone and bumps the length. -/
theorem addTailCore_fields (h : Heap V) (l : list V) (v : V) :
    (listAddNodeTailCore h l v).2.dup = l.dup ∧
    (listAddNodeTailCore h l v).2.free = l.free ∧
    (listAddNodeTailCore h l v).2.matchFn = l.matchFn ∧
    (listAddNodeTailCore h l v).2.len = l.len + 1 := by
  unfold listAddNodeTailCore
  by_cases h0 : l.len = 0 <;> simp [h0]

/-- Invariant of the `listDup` copy loop: it never touches any heap cell
below `n₀` (in particular none of the source), and on success the copy is
a well-formed fresh chain holding the `dup`-image of the values still to
be visited, appended to what was already copied. -/
theorem dupLoop_spec (n₀ : Nat) (todo : List Nat) :
    ∀ (h : Heap V) (copy : list V) (cs : List Nat) (oracle : List Bool)
      (pre : Option Nat) (fuel : Nat) (o' : List Bool) (h' : Heap V)
      (res : Option (list V)),
      segOk h pre todo none = true →
      represents h copy cs →
      (∀ a ∈ todo, a < n₀) →
      (∀ c ∈ cs, n₀ ≤ c) →
      n₀ ≤ h.length →
      todo.length ≤ fuel →
      dupLoop h copy { next := todo.head?, direction := AL_START_HEAD }
        oracle fuel = (o', h', res) →
      (∀ b, b < n₀ → h'[b]? = h[b]?) ∧ n₀ ≤ h'.length ∧
      (∀ c', res = some c' →
        ∃ cs', represents h' c' cs' ∧ (∀ x ∈ cs', n₀ ≤ x) ∧
          c'.dup = copy.dup ∧ c'.free = copy.free ∧
          c'.matchFn = copy.matchFn ∧ c'.len = copy.len + todo.length ∧
          valuesA h' cs' = valuesA h cs ++
            todo.map (fun a =>
              ((h[a]?).map listNode.value).bind (dupValue copy.dup))) := by
  induction todo with
  | nil =>
    intro h copy cs oracle pre fuel o' h' res hseg hrep hmemt hmemcs hn0
      hfuel heq
    have hstop : dupLoop h copy
        { next := ([] : List Nat).head?, direction := AL_START_HEAD }
        oracle fuel = (oracle, h, some copy) := by
      cases fuel <;> rfl
    rw [hstop] at heq
    injection heq with e1 e23
    injection e23 with e2 e3
    subst e1
    subst e2
    subst e3
    refine ⟨fun b _ => rfl, hn0, ?_⟩
    intro c' hc'
    cases hc'
    exact ⟨cs, hrep, fun x hx => hmemcs x hx, rfl, rfl, rfl, by simp,
      by simp⟩
  | cons a rest ih =>
    intro h copy cs oracle pre fuel o' h' res hseg hrep hmemt hmemcs hn0
      hfuel heq
    cases fuel with
    | zero => simp at hfuel
    | succ f =>
    rcases segOk_cons_iff.mp hseg with ⟨nd, hnd, hnp, hnn, hrest⟩
    simp only [Option.or_none] at hnn
    have hln : listNext h
        { next := (a :: rest).head?, direction := AL_START_HEAD } =
        ({ next := rest.head?, direction := AL_START_HEAD }, some a) := by
      simp [listNext, AL_START_HEAD, nextOf, hnd, hnn]
    simp only [dupLoop, hln, hnd] at heq
    cases hdv : dupValue copy.dup nd.value with
    | none =>
      rw [hdv] at heq
      injection heq with e1 e23
      injection e23 with e2 e3
      subst e1
      subst e2
      subst e3
      exact ⟨fun b _ => rfl, hn0, fun c' hc' => by cases hc'⟩
    | some value =>
      rw [hdv] at heq
      have halt : a < n₀ := hmemt a (by simp)
      -- facts about the successful tail append
      obtain ⟨hrep₂, hvals₂, hlen₂, hframe₂⟩ := addTailCore_rep value hrep
      obtain ⟨hdup₂, hfree₂, hmatch₂, hlc₂⟩ := addTailCore_fields h copy value
      have hcells : ∀ x ∈ rest,
          (listAddNodeTailCore h copy value).1[x]? = h[x]? := by
        intro x hx
        have hxlt : x < n₀ := hmemt x (by simp [hx])
        refine hframe₂ x (by omega) ?_
        intro hxcs
        have := hmemcs x hxcs
        omega
      have hacell : (listAddNodeTailCore h copy value).1[a]? = h[a]? := by
        refine hframe₂ a (by omega) ?_
        intro hacs
        have := hmemcs a hacs
        omega
      have hsegrest : segOk (listAddNodeTailCore h copy value).1 (some a)
          rest none = true := by
        rw [segOk_congr hcells]
        exact hrest
      have hmemcs₂ : ∀ c ∈ cs ++ [h.length], n₀ ≤ c := by
        intro c hc
        rcases List.mem_append.mp hc with hc | hc
        · exact hmemcs c hc
        · have : c = h.length := by simpa using hc
          omega
      have hsucc : ∀ orc : List Bool,
          dupLoop (listAddNodeTailCore h copy value).1
            (listAddNodeTailCore h copy value).2
            { next := rest.head?, direction := AL_START_HEAD } orc f =
            (o', h', res) →
          (∀ b, b < n₀ → h'[b]? = h[b]?) ∧ n₀ ≤ h'.length ∧
          (∀ c', res = some c' →
            ∃ cs', represents h' c' cs' ∧ (∀ x ∈ cs', n₀ ≤ x) ∧
              c'.dup = copy.dup ∧ c'.free = copy.free ∧
              c'.matchFn = copy.matchFn ∧
              c'.len = copy.len + (a :: rest).length ∧
              valuesA h' cs' = valuesA h cs ++
                (a :: rest).map (fun x =>
                  ((h[x]?).map listNode.value).bind (dupValue copy.dup))) := by
        intro orc heq₂
        obtain ⟨ha', hb', hc'⟩ := ih (listAddNodeTailCore h copy value).1
          (listAddNodeTailCore h copy value).2 (cs ++ [h.length]) orc
          (some a) f o' h' res hsegrest hrep₂ (fun x hx => hmemt x (by
            simp [hx])) hmemcs₂ (by omega) (by simpa using hfuel) heq₂
        refine ⟨?_, hb', ?_⟩
        · intro b hb
          rw [ha' b hb]
          refine hframe₂ b (by omega) ?_
          intro hbcs
          have := hmemcs b hbcs
          omega
        · intro c' hres
          obtain ⟨cs'', hrep'', hmem'', hdup'', hfree'', hmatch'', hlen'',
            hvals''⟩ := hc' c' hres
          refine ⟨cs'', hrep'', hmem'', hdup''.trans hdup₂,
            hfree''.trans hfree₂, hmatch''.trans hmatch₂, ?_, ?_⟩
          · rw [hlen'', hlc₂]
            simp
            omega
          · rw [hvals'', hvals₂, hdup₂]
            have hmapr : rest.map (fun x =>
                (((listAddNodeTailCore h copy value).1[x]?).map
                  listNode.value).bind (dupValue copy.dup)) =
                rest.map (fun x =>
                  ((h[x]?).map listNode.value).bind (dupValue copy.dup)) := by
              apply List.map_congr_left
              intro x hx
              rw [hcells x hx]
            rw [hmapr]
            simp only [List.map_cons, List.append_assoc,
              List.singleton_append]
            simp [hnd, hdv]
      -- the three oracle shapes
      rcases oracle with _ | ⟨ob, orest⟩
      · simp only [takeOracle, listAddNodeTail, if_pos] at heq
        exact hsucc _ heq
      · cases ob with
        | true =>
          simp only [takeOracle, listAddNodeTail, if_pos] at heq
          exact hsucc _ heq
        | false =>
          simp only [takeOracle, listAddNodeTail, Bool.false_eq_true,
            if_false] at heq
          injection heq with e1 e23
          injection e23 with e2 e3
          subst e1
          subst e2
          subst e3
          exact ⟨fun b _ => rfl, hn0, fun c' hc' => by cases hc'⟩

/-- Lemma: `listDup` never modifies the source: every heap cell that existed
before the call is untouched (so the source stays well-formed), and on
success the copy is a fresh well-formed list sharing the three hooks,
with the `dup`-image of the source values, in order. -/
theorem listDup_spec {h : Heap V} {orig : list V} {as : List Nat}
    (hr : represents h orig as) (oracle : List Bool) :
    (∀ b, b < h.length → (listDup oracle h orig).2.1[b]? = h[b]?) ∧
    represents (listDup oracle h orig).2.1 orig as ∧
    (∀ c', (listDup oracle h orig).2.2 = some c' →
      ∃ cs', represents (listDup oracle h orig).2.1 c' cs' ∧
        c'.dup = orig.dup ∧ c'.free = orig.free ∧
        c'.matchFn = orig.matchFn ∧ c'.len = orig.len ∧
        valuesA (listDup oracle h orig).2.1 cs' =
          as.map (fun a =>
            ((h[a]?).map listNode.value).bind (dupValue orig.dup))) := by
  have hmem := segOk_mem_lt hr.2.2.2.2
  rcases htk : takeOracle oracle with ⟨ok, orest⟩
  cases ok with
  | false =>
    simp only [listDup, htk, Bool.false_eq_true, if_false]
    refine ⟨?_, hr, ?_⟩
    · intro b _
      first
        | rfl
        | trivial
    · intro c' hc'
      cases hc'
  | true =>
    have hrw : listRewind orig =
        { next := as.head?, direction := AL_START_HEAD } := by
      rw [listRewind, hr.1]
    rcases hdl : (dupLoop h (dupInit orig)
        { next := as.head?, direction := AL_START_HEAD } orest orig.len)
      with ⟨o', h', res⟩
    have hrep0 : represents h (dupInit orig) ([] : List Nat) := by
      refine ⟨rfl, rfl, rfl, ?_, rfl⟩
      simp
    obtain ⟨hframe, hlen, hres⟩ := dupLoop_spec h.length as h
      (dupInit orig) [] orest none orig.len o' h' res hr.2.2.2.2 hrep0 hmem
      (fun c hc => absurd hc (List.not_mem_nil c)) (le_refl _)
      (le_of_eq hr.2.2.1.symm) hdl
    have hout : listDup oracle h orig = (o', h', res) := by
      simp only [listDup, htk, if_pos, hrw]
      exact hdl
    rw [hout]
    refine ⟨hframe, ?_, ?_⟩
    · exact represents_congr hr (fun x hx => hframe x (hmem x hx))
    · intro c' hc'
      obtain ⟨cs', hrep', hmem', hdup', hfree', hmatch', hlen', hvals'⟩ :=
        hres c' hc'
      have hdup2 : c'.dup = orig.dup := hdup'
      have hfree2 : c'.free = orig.free := hfree'
      have hmatch2 : c'.matchFn = orig.matchFn := hmatch'
      refine ⟨cs', hrep', hdup2, hfree2, hmatch2, ?_, ?_⟩
      · rw [hlen']
        simp only [dupInit, listCreate]
        rw [hr.2.2.1]
        omega
      · rw [hvals']
        simp [valuesA, dupInit, listCreate]

/-! ## Claim theorems -/

/-- C10: `listEmpty` resets head and tail to empty and the length to 0 but
leaves the `dup`, `free` and `match` hooks unchanged, so the emptied list
is a valid empty list and later operations (here: `listDup`) still use
the hooks configured before the call. -/
theorem listEmpty_resets_but_keeps_hooks (h : Heap V) (l : list V) :
    listEmpty h l =
      (h, { l with head := none, tail := none, len := 0 }) ∧
    represents (listEmpty h l).1 (listEmpty h l).2 [] ∧
    (∀ oracle c', (listDup oracle (listEmpty h l).1 (listEmpty h l).2).2.2
        = some c' →
      c'.dup = l.dup ∧ c'.free = l.free ∧ c'.matchFn = l.matchFn) := by
  have hrep : represents (listEmpty h l).1 (listEmpty h l).2 [] :=
    ⟨rfl, rfl, rfl, by simp, rfl⟩
  refine ⟨rfl, hrep, ?_⟩
  intro oracle c' hc'
  obtain ⟨-, -, hres⟩ := listDup_spec hrep oracle
  obtain ⟨-, -, hdup, hfree, hmatch, -, -⟩ := hres c' hc'
  exact ⟨hdup, hfree, hmatch⟩

/-- C10 witness: emptying a concrete one-element list with no hooks and
then duplicating it yields a list with the same (empty) hooks. -/
theorem listEmpty_resets_but_keeps_hooks_witness :
    (listDup [] (listEmpty [⟨none, none, 7⟩]
        { head := some 0, tail := some 0, len := 1, dup := none,
          free := none, matchFn := none }).1
      (listEmpty [⟨none, none, (7 : Nat)⟩]
        { head := some 0, tail := some 0, len := 1, dup := none,
          free := none, matchFn := none }).2).2.2 =
      some (listCreate Nat) ∧
    ((listCreate Nat).dup = (none : Option (Nat → Option Nat)) ∧
      (listCreate Nat).free = (none : Option (Nat → Unit)) ∧
      (listCreate Nat).matchFn = (none : Option (Nat → Nat → Bool))) := by
  refine ⟨rfl, ?_⟩
  exact (listEmpty_resets_but_keeps_hooks
    [⟨none, none, (7 : Nat)⟩]
    { head := some 0, tail := some 0, len := 1, dup := none,
      free := none, matchFn := none }).2.2 [] (listCreate Nat) rfl

/-- C8: `listNext` returns the node at the cursor and advances the cursor
to its successor (forward) or predecessor (backward); on an exhausted
cursor it returns the empty result and leaves the iterator unchanged, so
every further call keeps returning the empty result. -/
theorem listNext_spec (h : Heap V) (iter : listIter) :
    (iter.next = none → listNext h iter = (iter, none)) ∧
    (∀ a, iter.next = some a →
      (listNext h iter).2 = some a ∧
      (listNext h iter).1.direction = iter.direction ∧
      (listNext h iter).1.next =
        (if iter.direction = AL_START_HEAD then nextOf h (some a)
         else prevOf h (some a))) ∧
    (iter.next = none →
      ∀ k, (fun it => (listNext h it).1)^[k] iter = iter) := by
  refine ⟨?_, ?_, ?_⟩
  · intro hnone
    cases hit : iter.next with
    | none => simp [listNext, hit]
    | some a => rw [hit] at hnone; cases hnone
  · intro a ha
    by_cases hdir : iter.direction = AL_START_HEAD <;>
      simp [listNext, ha, hdir]
  · intro hnone k
    induction k with
    | zero => rfl
    | succ n ihn =>
      rw [Function.iterate_succ_apply, show (listNext h iter).1 = iter by
        simp [listNext, hnone]]
      exact ihn

/-- C8 witness: an exhausted iterator on the empty heap stays exhausted. -/
theorem listNext_spec_witness :
    listNext ([] : Heap Nat) { next := none, direction := AL_START_HEAD } =
      ({ next := none, direction := AL_START_HEAD }, none) ∧
    (fun it => (listNext ([] : Heap Nat) it).1)^[3]
      { next := none, direction := AL_START_HEAD } =
      { next := none, direction := AL_START_HEAD } := by
  have hs := listNext_spec ([] : Heap Nat)
    { next := none, direction := AL_START_HEAD }
  exact ⟨hs.1 rfl, hs.2.2 rfl 3⟩

/-- C4: `listRotate` moves the current tail node to the head position,
leaves every stored value in place (so the relative order of the other
nodes is unchanged: `[A,B,C]` becomes `[C,A,B]`), and is a no-op on lists
of length 0 or 1. -/
theorem listRotate_spec (h : Heap V) (l : list V) (xs : List Nat) (t : Nat)
    (hne : xs ≠ []) (hr : represents h l (xs ++ [t])) :
    represents (listRotate h l).1 (listRotate h l).2 (t :: xs) ∧
    valuesA (listRotate h l).1 (t :: xs) = valuesA h (t :: xs) ∧
    (∀ (h₀ : Heap V) (l₀ : list V), l₀.len ≤ 1 →
      listRotate h₀ l₀ = (h₀, l₀)) := by
  obtain ⟨hrep, hvals⟩ := rotate_rep hne hr
  refine ⟨hrep, hvals (t :: xs), ?_⟩
  intro h₀ l₀ hl₀
  simp [listRotate, hl₀]

/-- C4 witness: rotating the concrete chain `[A,B,C] = [10,20,30]` gives
the chain `[30,10,20]`, and rotating a one-element list changes nothing. -/
theorem listRotate_spec_witness :
    represents
      (listRotate
        [⟨none, some 1, (10 : Nat)⟩, ⟨some 0, some 2, 20⟩,
          ⟨some 1, none, 30⟩]
        { head := some 0, tail := some 2, len := 3, dup := none,
          free := none, matchFn := none }).1
      (listRotate
        [⟨none, some 1, (10 : Nat)⟩, ⟨some 0, some 2, 20⟩,
          ⟨some 1, none, 30⟩]
        { head := some 0, tail := some 2, len := 3, dup := none,
          free := none, matchFn := none }).2 (2 :: [0, 1]) ∧
    listRotate ([] : Heap Nat) (listCreate Nat) = ([], listCreate Nat) := by
  have hs := listRotate_spec
    [⟨none, some 1, (10 : Nat)⟩, ⟨some 0, some 2, 20⟩, ⟨some 1, none, 30⟩]
    { head := some 0, tail := some 2, len := 3, dup := none,
      free := none, matchFn := none }
    [0, 1] 2 (by decide) (by decide)
  exact ⟨hs.1, hs.2.2 [] (listCreate Nat) (by decide)⟩

/-- C3: `listJoin` appends all of the source's nodes, in order, to the end
of the destination; the destination's length becomes the sum of the two
lengths, no stored value changes, and the source ends up a valid empty
list (head and tail cleared, length 0) that keeps no reference to the
moved nodes. -/
theorem listJoin_spec (h : Heap V) (l o : list V) (as bs : List Nat)
    (hrl : represents h l as) (hro : represents h o bs)
    (hdisj : as.Disjoint bs) :
    represents (listJoin h l o).1 (listJoin h l o).2.1 (as ++ bs) ∧
    (listJoin h l o).2.1.len = l.len + o.len ∧
    valuesA (listJoin h l o).1 (as ++ bs) = valuesA h as ++ valuesA h bs ∧
    (listJoin h l o).2.2 =
      { o with head := none, tail := none, len := 0 } ∧
    represents (listJoin h l o).1 (listJoin h l o).2.2 [] := by
  obtain ⟨hrep, hemptied, hvals⟩ := join_rep hrl hro hdisj
  refine ⟨hrep, ?_, ?_, hemptied, ?_⟩
  · have := hrep.2.2.1
    rw [this]
    simp [hrl.2.2.1, hro.2.2.1]
  · rw [hvals (as ++ bs)]
    simp [valuesA]
  · rw [hemptied]
    exact ⟨rfl, rfl, rfl, by simp, rfl⟩

/-- C3 witness: joining the concrete lists `L = [1,2]` and `O = [3,4]`
yields the chain `[1,2,3,4]` of length 4 with the values in order, and
`O` becomes a valid empty list. -/
theorem listJoin_spec_witness :
    represents
      (listJoin
        [⟨none, some 1, (1 : Nat)⟩, ⟨some 0, none, 2⟩,
          ⟨none, some 3, 3⟩, ⟨some 2, none, 4⟩]
        { head := some 0, tail := some 1, len := 2, dup := none,
          free := none, matchFn := none }
        { head := some 2, tail := some 3, len := 2, dup := none,
          free := none, matchFn := none }).1
      (listJoin
        [⟨none, some 1, (1 : Nat)⟩, ⟨some 0, none, 2⟩,
          ⟨none, some 3, 3⟩, ⟨some 2, none, 4⟩]
        { head := some 0, tail := some 1, len := 2, dup := none,
          free := none, matchFn := none }
        { head := some 2, tail := some 3, len := 2, dup := none,
          free := none, matchFn := none }).2.1 ([0, 1] ++ [2, 3]) ∧
    (listJoin
        [⟨none, some 1, (1 : Nat)⟩, ⟨some 0, none, 2⟩,
          ⟨none, some 3, 3⟩, ⟨some 2, none, 4⟩]
        { head := some 0, tail := some 1, len := 2, dup := none,
          free := none, matchFn := none }
        { head := some 2, tail := some 3, len := 2, dup := none,
          free := none, matchFn := none }).2.1.len = 2 + 2 := by
  have hs := listJoin_spec
    [⟨none, some 1, (1 : Nat)⟩, ⟨some 0, none, 2⟩, ⟨none, some 3, 3⟩,
      ⟨some 2, none, 4⟩]
    { head := some 0, tail := some 1, len := 2, dup := none,
      free := none, matchFn := none }
    { head := some 2, tail := some 3, len := 2, dup := none,
      free := none, matchFn := none }
    [0, 1] [2, 3] (by decide) (by decide)
    (by intro x hx hy; simp at hx hy; omega)
  exact ⟨hs.1, hs.2.1⟩

/-- C5: on a list of `n` nodes, `listIndex` returns the node at zero-based
position `index` for `0 ≤ index ≤ n-1`, the node at position `n + index`
for `-n ≤ index ≤ -1` (so `-1` is the tail), and the empty result exactly
when `index` falls outside `[-n, n-1]`. -/
theorem listIndex_spec (h : Heap V) (l : list V) (as : List Nat)
    (hr : represents h l as) :
    (∀ i : Int, 0 ≤ i → i < (as.length : Int) →
      listIndex h l i = as[i.toNat]?) ∧
    (∀ i : Int, -(as.length : Int) ≤ i → i < 0 →
      listIndex h l i = as[((as.length : Int) + i).toNat]?) ∧
    (∀ i : Int, i < -(as.length : Int) ∨ (as.length : Int) ≤ i →
      listIndex h l i = none) := by
  obtain ⟨hh, ht, hl, hd, hs⟩ := hr
  have hrev : segOkP h none as.reverse none = true := segOk_reverse hs
  have htl : l.tail = as.reverse.head? := by
    rw [ht, List.head?_reverse]
  have hneg : ∀ i : Int, i < 0 →
      listIndex h l i = as.reverse[((-i) - 1).toNat]? := by
    intro i hi
    rw [listIndex, if_pos hi, htl, walkPrev_seg hrev]
  refine ⟨?_, ?_, ?_⟩
  · intro i h0 _
    rw [listIndex, if_neg (by omega), hh, walkNext_seg hs]
  · intro i hlo hhi
    rw [hneg i hhi]
    have hk : ((-i) - 1).toNat < as.length := by omega
    rw [List.getElem?_reverse hk]
    congr 1
    omega
  · intro i hout
    rcases hout with hout | hout
    · rw [hneg i (by omega)]
      apply List.getElem?_eq_none
      rw [List.length_reverse]
      omega
    · rw [listIndex, if_neg (by omega), hh, walkNext_seg hs]
      apply List.getElem?_eq_none
      omega

/-- C5 witness: on the concrete 3-element chain, index 0 returns the head,
−1 the tail, and 3 and −4 return the empty result. -/
theorem listIndex_spec_witness :
    listIndex [⟨none, some 1, (10 : Nat)⟩, ⟨some 0, some 2, 20⟩,
        ⟨some 1, none, 30⟩]
      { head := some 0, tail := some 2, len := 3, dup := none,
        free := none, matchFn := none } 0 = some 0 ∧
    listIndex [⟨none, some 1, (10 : Nat)⟩, ⟨some 0, some 2, 20⟩,
        ⟨some 1, none, 30⟩]
      { head := some 0, tail := some 2, len := 3, dup := none,
        free := none, matchFn := none } (-1) = some 2 ∧
    listIndex [⟨none, some 1, (10 : Nat)⟩, ⟨some 0, some 2, 20⟩,
        ⟨some 1, none, 30⟩]
      { head := some 0, tail := some 2, len := 3, dup := none,
        free := none, matchFn := none } 3 = none ∧
    listIndex [⟨none, some 1, (10 : Nat)⟩, ⟨some 0, some 2, 20⟩,
        ⟨some 1, none, 30⟩]
      { head := some 0, tail := some 2, len := 3, dup := none,
        free := none, matchFn := none } (-4) = none := by
  have hs := listIndex_spec
    [⟨none, some 1, (10 : Nat)⟩, ⟨some 0, some 2, 20⟩, ⟨some 1, none, 30⟩]
    { head := some 0, tail := some 2, len := 3, dup := none,
      free := none, matchFn := none }
    [0, 1, 2] (by decide)
  refine ⟨?_, ?_, ?_, ?_⟩
  · have := hs.1 0 (by decide) (by decide)
    simpa using this
  · have := hs.2.1 (-1) (by decide) (by decide)
    simpa using this
  · exact hs.2.2 3 (Or.inr (by decide))
  · exact hs.2.2 (-4) (Or.inl (by decide))

/-- C7: inserting after the current tail makes the fresh node the new
tail; inserting before the current head makes it the new head; in both
cases the length grows by one and the node sits immediately next to the
anchor in the chain. -/
theorem listInsertNode_boundary_spec (h : Heap V) (l : list V)
    (xs ys : List Nat) (o : Nat) (v : V)
    (hr : represents h l (xs ++ o :: ys)) :
    (l.tail = some o →
      represents (listInsertNodeCore h l o v true).1
        (listInsertNodeCore h l o v true).2 (xs ++ o :: [h.length]) ∧
      (listInsertNodeCore h l o v true).2.tail = some h.length ∧
      (listInsertNodeCore h l o v true).2.len = l.len + 1) ∧
    (l.head = some o →
      represents (listInsertNodeCore h l o v false).1
        (listInsertNodeCore h l o v false).2 (h.length :: o :: ys) ∧
      (listInsertNodeCore h l o v false).2.head = some h.length ∧
      (listInsertNodeCore h l o v false).2.len = l.len + 1) := by
  have hrk := hr
  obtain ⟨hh, ht, hl, hd, -⟩ := hr
  constructor
  · intro htail
    have hys : ys = [] := by
      cases ys with
      | nil => rfl
      | cons q ys' =>
        exfalso
        obtain ⟨tb, htb⟩ : ∃ tb, (q :: ys').getLast? = some tb := by
          cases hg : (q :: ys').getLast? with
          | none => simp at hg
          | some tb => exact ⟨tb, rfl⟩
        have h1 : l.tail = some tb := by
          rw [ht, List.getLast?_append]
          simp [htb]
        have htbo : tb = o := by
          rw [htail] at h1
          exact (Option.some.inj h1).symm
        have hmem : tb ∈ q :: ys' := List.mem_of_getLast?_eq_some htb
        have hdys := (List.nodup_append.mp hd).2.1
        exact (List.nodup_cons.mp hdys).1 (htbo ▸ hmem)
    subst hys
    have hrep := insertAfter_rep v hrk
    refine ⟨hrep, ?_, ?_⟩
    · rw [hrep.2.1]
      simp
    · rw [hrep.2.2.1, hl]
      simp
  · intro hhead
    have hxs : xs = [] := by
      cases xs with
      | nil => rfl
      | cons c cs =>
        exfalso
        have h1 : l.head = some c := by
          rw [hh]; simp
        have hco : c = o := by
          rw [hhead] at h1
          exact (Option.some.inj h1).symm
        have : o ∉ c :: cs := by
          intro hm
          exact ((List.nodup_append.mp hd).2.2 hm) (by simp)
        exact this (by simp [hco])
    subst hxs
    have hrep := insertBefore_rep v hrk
    refine ⟨hrep, ?_, ?_⟩
    · rw [hrep.1]
      simp
    · rw [hrep.2.2.1, hl]
      simp

/-- C7 witness: on a concrete two-element chain, inserting after the tail
makes the fresh node the tail and inserting before the head makes it the
head, each time growing the length to 3. -/
theorem listInsertNode_boundary_spec_witness :
    ((listInsertNodeCore [⟨none, some 1, (1 : Nat)⟩, ⟨some 0, none, 2⟩]
        { head := some 0, tail := some 1, len := 2, dup := none,
          free := none, matchFn := none } 1 9 true).2.tail = some 2 ∧
      (listInsertNodeCore [⟨none, some 1, (1 : Nat)⟩, ⟨some 0, none, 2⟩]
        { head := some 0, tail := some 1, len := 2, dup := none,
          free := none, matchFn := none } 1 9 true).2.len = 2 + 1) ∧
    ((listInsertNodeCore [⟨none, some 1, (1 : Nat)⟩, ⟨some 0, none, 2⟩]
        { head := some 0, tail := some 1, len := 2, dup := none,
          free := none, matchFn := none } 0 9 false).2.head = some 2 ∧
      (listInsertNodeCore [⟨none, some 1, (1 : Nat)⟩, ⟨some 0, none, 2⟩]
        { head := some 0, tail := some 1, len := 2, dup := none,
          free := none, matchFn := none } 0 9 false).2.len = 2 + 1) := by
  constructor
  · have hs := (listInsertNode_boundary_spec
      [⟨none, some 1, (1 : Nat)⟩, ⟨some 0, none, 2⟩]
      { head := some 0, tail := some 1, len := 2, dup := none,
        free := none, matchFn := none }
      [0] [] 1 9 (by decide)).1 rfl
    exact ⟨hs.2.1, hs.2.2⟩
  · have hs := (listInsertNode_boundary_spec
      [⟨none, some 1, (1 : Nat)⟩, ⟨some 0, none, 2⟩]
      { head := some 0, tail := some 1, len := 2, dup := none,
        free := none, matchFn := none }
      [] [1] 0 9 (by decide)).2 rfl
    exact ⟨hs.2.1, hs.2.2⟩

/-- C9: on a non-empty list, the sequence of values visited by a forward
iteration from the head is the reverse of the sequence visited by a
backward iteration from the tail. -/
theorem traversal_reverse_spec (h : Heap V) (l : list V) (as : List Nat)
    (hr : represents h l as) (_hne : as ≠ []) :
    ∀ itF itB, listGetIterator true l AL_START_HEAD = some itF →
      listGetIterator true l AL_START_TAIL = some itB →
      valuesA h (traverseAddrs h itF l.len) =
        (valuesA h (traverseAddrs h itB l.len)).reverse := by
  obtain ⟨hh, ht, hl, hd, hs⟩ := hr
  intro itF itB hitF hitB
  have hF : itF = { next := as.head?, direction := AL_START_HEAD } := by
    have : itF = { next := l.head, direction := AL_START_HEAD } := by
      simp [listGetIterator, AL_START_HEAD] at hitF
      exact hitF.symm
    rw [this, hh]
  have hB : itB = { next := as.reverse.head?, direction := AL_START_TAIL } := by
    have : itB = { next := l.tail, direction := AL_START_TAIL } := by
      simp [listGetIterator, AL_START_TAIL, AL_START_HEAD] at hitB
      exact hitB.symm
    rw [this, ht, List.head?_reverse]
  have hfwd : traverseAddrs h
      { next := as.head?, direction := AL_START_HEAD } l.len = as :=
    traverse_fwd hs l.len (le_of_eq hl.symm)
  have hbwd : traverseAddrs h
      { next := as.reverse.head?, direction := AL_START_TAIL } l.len
        = as.reverse :=
    traverse_bwd (segOk_reverse hs) l.len
      (by rw [List.length_reverse]; exact le_of_eq hl.symm)
  rw [hF, hB, hfwd, hbwd]
  unfold valuesA
  rw [List.map_reverse, List.reverse_reverse]

/-- C9 witness: on the concrete chain `[10,20,30]`, the forward value
sequence is the reverse of the backward one. -/
theorem traversal_reverse_spec_witness :
    valuesA [⟨none, some 1, (10 : Nat)⟩, ⟨some 0, some 2, 20⟩,
        ⟨some 1, none, 30⟩]
      (traverseAddrs [⟨none, some 1, (10 : Nat)⟩, ⟨some 0, some 2, 20⟩,
          ⟨some 1, none, 30⟩]
        { next := some 0, direction := AL_START_HEAD } 3) =
    (valuesA [⟨none, some 1, (10 : Nat)⟩, ⟨some 0, some 2, 20⟩,
        ⟨some 1, none, 30⟩]
      (traverseAddrs [⟨none, some 1, (10 : Nat)⟩, ⟨some 0, some 2, 20⟩,
          ⟨some 1, none, 30⟩]
        { next := some 2, direction := AL_START_TAIL } 3)).reverse := by
  exact traversal_reverse_spec
    [⟨none, some 1, (10 : Nat)⟩, ⟨some 0, some 2, 20⟩, ⟨some 1, none, 30⟩]
    { head := some 0, tail := some 2, len := 3, dup := none,
      free := none, matchFn := none }
    [0, 1, 2] (by decide) (by decide)
    { next := some 0, direction := AL_START_HEAD }
    { next := some 2, direction := AL_START_TAIL } rfl rfl

/-- C2: when `zmalloc` fails, every allocating operation returns the
failure result with the heap untouched (the caller's list header is not
even looked at); for `listDup`, a failure anywhere leaves every
pre-existing heap cell unchanged, so the source list is unaffected (the
partial copy is released, which has no observable effect on values). -/
theorem allocFailure_spec (h : Heap V) (l : list V) (as : List Nat)
    (hr : represents h l as) :
    (∀ v, listAddNodeHead false h l v = (h, none)) ∧
    (∀ v, listAddNodeTail false h l v = (h, none)) ∧
    (∀ o v aft, listInsertNode false h l o v aft = (h, none)) ∧
    (∀ d, listGetIterator false l d = none) ∧
    (∀ oracle, (listDup oracle h l).2.2 = none →
      (∀ b, b < h.length → (listDup oracle h l).2.1[b]? = h[b]?) ∧
      represents (listDup oracle h l).2.1 l as) := by
  refine ⟨fun v => rfl, fun v => rfl, fun o v aft => rfl, fun d => rfl, ?_⟩
  intro oracle _
  obtain ⟨hframe, hrep, -⟩ := listDup_spec hr oracle
  exact ⟨hframe, hrep⟩

/-- C2 witness: with the allocation oracle refusing the first request,
`listAddNodeHead` on a concrete one-element list fails and returns the
heap unchanged, and a failing `listDup` leaves the source represented. -/
theorem allocFailure_spec_witness :
    listAddNodeHead false [⟨none, none, (7 : Nat)⟩]
      { head := some 0, tail := some 0, len := 1, dup := none,
        free := none, matchFn := none } 5 =
      ([⟨none, none, (7 : Nat)⟩], none) ∧
    represents
      (listDup [false] [⟨none, none, (7 : Nat)⟩]
        { head := some 0, tail := some 0, len := 1, dup := none,
          free := none, matchFn := none }).2.1
      { head := some 0, tail := some 0, len := 1, dup := none,
        free := none, matchFn := none } [0] := by
  have hs := allocFailure_spec [⟨none, none, (7 : Nat)⟩]
    { head := some 0, tail := some 0, len := 1, dup := none,
      free := none, matchFn := none } [0] (by decide)
  exact ⟨hs.1 5, (hs.2.2.2.2 [false] rfl).2⟩

/-- C6: a successful `listDup` returns a fresh well-formed list with the
same `dup`/`free`/`match` hooks and the same length, holding at each
position the value the `dup` hook produced from the source value (the
identical value when no hook is set, by `dupValue`); the source list is
never mutated, on success or failure: its chain still represents it and
every one of its stored values is unchanged. -/
theorem listDup_copies_spec (h : Heap V) (orig : list V) (as : List Nat)
    (hr : represents h orig as) (oracle : List Bool) :
    represents (listDup oracle h orig).2.1 orig as ∧
    valuesA (listDup oracle h orig).2.1 as = valuesA h as ∧
    (∀ c', (listDup oracle h orig).2.2 = some c' →
      ∃ cs', represents (listDup oracle h orig).2.1 c' cs' ∧
        c'.dup = orig.dup ∧ c'.free = orig.free ∧
        c'.matchFn = orig.matchFn ∧ c'.len = orig.len ∧
        valuesA (listDup oracle h orig).2.1 cs' =
          as.map (fun a =>
            ((h[a]?).map listNode.value).bind (dupValue orig.dup))) := by
  obtain ⟨hframe, hrep, hres⟩ := listDup_spec hr oracle
  have hmem := segOk_mem_lt hr.2.2.2.2
  refine ⟨hrep, ?_, hres⟩
  exact valuesA_congr (fun a ha => hframe a (hmem a ha))

/-- C6 witness: duplicating a concrete two-element list (no `dup` hook, so
values are reused) succeeds with a copy of the same length and values,
and the source chain is untouched. -/
theorem listDup_copies_spec_witness :
    represents
      (listDup [] [⟨none, some 1, (1 : Nat)⟩, ⟨some 0, none, 2⟩]
        { head := some 0, tail := some 1, len := 2, dup := none,
          free := none, matchFn := none }).2.1
      { head := some 0, tail := some 1, len := 2, dup := none,
        free := none, matchFn := none } [0, 1] ∧
    valuesA
      (listDup [] [⟨none, some 1, (1 : Nat)⟩, ⟨some 0, none, 2⟩]
        { head := some 0, tail := some 1, len := 2, dup := none,
          free := none, matchFn := none }).2.1 [0, 1] =
      valuesA [⟨none, some 1, (1 : Nat)⟩, ⟨some 0, none, 2⟩] [0, 1] := by
  have hs := listDup_copies_spec
    [⟨none, some 1, (1 : Nat)⟩, ⟨some 0, none, 2⟩]
    { head := some 0, tail := some 1, len := 2, dup := none,
      free := none, matchFn := none } [0, 1] (by decide) []
  exact ⟨hs.1, hs.2.1⟩

/-- C1: every public operation — insert at head, insert at tail, insert
relative to a node, delete a node, rotate, join, empty, duplicate —
yields a list satisfying the structural invariant (`len = 0` iff head and
tail are both empty; `len = 1` iff head and tail name the same sole node
whose `prev` and `next` are both empty), starting from any well-formed
list; for join also the emptied source, and for duplicate both the
untouched source and the fresh copy, satisfy it. -/
theorem ops_preserve_lenInv (h : Heap V) (l : list V) (as : List Nat)
    (v : V) (hr : represents h l as) :
    lenInv (listAddNodeHeadCore h l v).1 (listAddNodeHeadCore h l v).2 ∧
    lenInv (listAddNodeTailCore h l v).1 (listAddNodeTailCore h l v).2 ∧
    (∀ xs o ys aft, as = xs ++ o :: ys →
      lenInv (listInsertNodeCore h l o v aft).1
        (listInsertNodeCore h l o v aft).2) ∧
    (∀ xs n ys, as = xs ++ n :: ys →
      lenInv (listDelNode h l n).1 (listDelNode h l n).2) ∧
    lenInv (listRotate h l).1 (listRotate h l).2 ∧
    (∀ (o : list V) bs, represents h o bs → as.Disjoint bs →
      lenInv (listJoin h l o).1 (listJoin h l o).2.1 ∧
      lenInv (listJoin h l o).1 (listJoin h l o).2.2) ∧
    lenInv (listEmpty h l).1 (listEmpty h l).2 ∧
    (∀ oracle, lenInv (listDup oracle h l).2.1 l ∧
      (∀ c', (listDup oracle h l).2.2 = some c' →
        lenInv (listDup oracle h l).2.1 c')) := by
  refine ⟨?_, ?_, ?_, ?_, ?_, ?_, ?_, ?_⟩
  · exact represents_lenInv (addHeadCore_rep v hr).1
  · exact represents_lenInv (addTailCore_rep v hr).1
  · intro xs o ys aft heq
    subst heq
    cases aft with
    | true => exact represents_lenInv (insertAfter_rep v hr)
    | false => exact represents_lenInv (insertBefore_rep v hr)
  · intro xs n ys heq
    subst heq
    exact represents_lenInv (delNode_rep hr)
  · rcases List.eq_nil_or_concat as with hnil | ⟨xs, t, hc⟩
    · subst hnil
      have hnoop : listRotate h l = (h, l) := by
        have : l.len ≤ 1 := by rw [hr.2.2.1]; simp
        simp [listRotate, this]
      rw [hnoop]
      exact represents_lenInv hr
    · have hxc : as = xs ++ [t] := by
        simpa [List.concat_eq_append] using hc
      subst hxc
      cases xs with
      | nil =>
        have hnoop : listRotate h l = (h, l) := by
          have : l.len ≤ 1 := by rw [hr.2.2.1]; simp
          simp [listRotate, this]
        rw [hnoop]
        exact represents_lenInv hr
      | cons b xs₁ =>
        exact represents_lenInv (rotate_rep (by simp) hr).1
  · intro o bs hro hdisj
    obtain ⟨hrep, hemptied, -⟩ := join_rep hr hro hdisj
    have hrepo : represents (listJoin h l o).1 (listJoin h l o).2.2
        ([] : List Nat) := by
      rw [hemptied]
      exact ⟨rfl, rfl, rfl, by simp, rfl⟩
    exact ⟨represents_lenInv hrep, represents_lenInv hrepo⟩
  · exact represents_lenInv
      (show represents (listEmpty h l).1 (listEmpty h l).2 [] from
        ⟨rfl, rfl, rfl, by simp, rfl⟩)
  · intro oracle
    obtain ⟨-, hrep, hres⟩ := listDup_spec hr oracle
    refine ⟨represents_lenInv hrep, ?_⟩
    intro c' hc'
    obtain ⟨cs', hrep', -⟩ := hres c' hc'
    exact represents_lenInv hrep'

/-- C1 witness: the invariant holds after each operation on a concrete
two-element list (insert after the head node, delete the head node,
rotate, join with a concrete singleton, empty, duplicate). -/
theorem ops_preserve_lenInv_witness :
    lenInv
      (listAddNodeHeadCore [⟨none, some 1, (1 : Nat)⟩, ⟨some 0, none, 2⟩]
        { head := some 0, tail := some 1, len := 2, dup := none,
          free := none, matchFn := none } 9).1
      (listAddNodeHeadCore [⟨none, some 1, (1 : Nat)⟩, ⟨some 0, none, 2⟩]
        { head := some 0, tail := some 1, len := 2, dup := none,
          free := none, matchFn := none } 9).2 ∧
    lenInv
      (listDelNode [⟨none, some 1, (1 : Nat)⟩, ⟨some 0, none, 2⟩]
        { head := some 0, tail := some 1, len := 2, dup := none,
          free := none, matchFn := none } 0).1
      (listDelNode [⟨none, some 1, (1 : Nat)⟩, ⟨some 0, none, 2⟩]
        { head := some 0, tail := some 1, len := 2, dup := none,
          free := none, matchFn := none } 0).2 ∧
    lenInv
      (listRotate [⟨none, some 1, (1 : Nat)⟩, ⟨some 0, none, 2⟩]
        { head := some 0, tail := some 1, len := 2, dup := none,
          free := none, matchFn := none }).1
      (listRotate [⟨none, some 1, (1 : Nat)⟩, ⟨some 0, none, 2⟩]
        { head := some 0, tail := some 1, len := 2, dup := none,
          free := none, matchFn := none }).2 := by
  have hs := ops_preserve_lenInv
    [⟨none, some 1, (1 : Nat)⟩, ⟨some 0, none, 2⟩]
    { head := some 0, tail := some 1, len := 2, dup := none,
      free := none, matchFn := none } [0, 1] 9 (by decide)
  exact ⟨hs.1, hs.2.2.2.1 [] 0 [1] rfl, hs.2.2.2.2.1⟩

end Adlist
